import Mathlib

/-!
# Verification of the `verify` hierarchical verification runner

A shallow embedding of the runner source (`ReportingDependencyTracker`,
`executeCommand`, `VerificationRunner`) together with proofs of the
behavioural claims stated about it.

JavaScript `Map` objects are embedded as association lists with
insertion-order preservation: `Map.set` replaces an existing binding in
place (keeping insertion order) or appends a fresh one, and `Map.get`
returns the first (unique) binding.
-/

namespace Verify

/-- JS `Map.get`: the value of the first binding of `k`, if any. -/
def mapGet {β : Type} (m : List (String × β)) (k : String) : Option β :=
  match m with
  | [] => none
  | (k', v) :: rest => if k' = k then some v else mapGet rest k

/-- JS `Map.set`: replace the binding of `k` in place, or append it. -/
def mapSet {β : Type} (m : List (String × β)) (k : String) (v : β) :
    List (String × β) :=
  match m with
  | [] => [(k, v)]
  | (k', v') :: rest =>
      if k' = k then (k, v) :: rest else (k', v') :: mapSet rest k v

/-- JS `Map.has`. -/
def mapHas {β : Type} (m : List (String × β)) (k : String) : Bool :=
  (mapGet m k).isSome

/-- JS `Map.delete`: remove the binding of `k`, if present. -/
def mapDelete {β : Type} (m : List (String × β)) (k : String) :
    List (String × β) :=
  match m with
  | [] => []
  | (k', v') :: rest =>
      if k' = k then rest else (k', v') :: mapDelete rest k

/-- `m.get(k) ?? d`. -/
def mapGetD {β : Type} (m : List (String × β)) (k : String) (d : β) : β :=
  (mapGet m k).getD d

/-- The insertion-ordered key list of a JS `Map` (`map.keys()`). -/
def mapKeys {β : Type} (m : List (String × β)) : List String :=
  m.map Prod.fst

theorem mapGet_set {β : Type} (m : List (String × β)) (k k' : String) (v : β) :
    mapGet (mapSet m k v) k' = if k' = k then some v else mapGet m k' := by
  induction m with
  | nil =>
    by_cases h : k' = k
    · simp [mapSet, mapGet, h]
    · have h' : ¬k = k' := fun hh => h hh.symm
      simp [mapSet, mapGet, h, h']
  | cons kv rest ih =>
    obtain ⟨a, b⟩ := kv
    by_cases hak : a = k
    · subst hak
      by_cases h : k' = a
      · simp [mapSet, mapGet, h]
      · have h' : ¬a = k' := fun hh => h hh.symm
        simp [mapSet, mapGet, h, h']
    · by_cases h : k' = a
      · subst h
        simp [mapSet, mapGet, hak]
      · have h' : ¬a = k' := fun hh => h hh.symm
        simp [mapSet, mapGet, hak, h, h', ih]

theorem mapGet_set_self {β : Type} (m : List (String × β)) (k : String)
    (v : β) : mapGet (mapSet m k v) k = some v := by
  simp [mapGet_set]

theorem mapGet_set_other {β : Type} (m : List (String × β)) {k k' : String}
    (v : β) (h : k' ≠ k) : mapGet (mapSet m k v) k' = mapGet m k' := by
  simp [mapGet_set, h]

theorem mapHas_set {β : Type} (m : List (String × β)) (k k' : String)
    (v : β) : mapHas (mapSet m k v) k' = (k' = k || mapHas m k') := by
  by_cases h : k' = k <;> simp [mapHas, mapGet_set, h]

theorem mapGet_eq_none_of_not_mem_keys {β : Type} (m : List (String × β))
    (k : String) (h : k ∉ mapKeys m) : mapGet m k = none := by
  induction m with
  | nil => simp [mapGet]
  | cons kv rest ih =>
    obtain ⟨a, b⟩ := kv
    have h1 : ¬a = k := fun hh => h (by simp [mapKeys, hh])
    have h2 : k ∉ mapKeys rest := fun hh => h (by simp [mapKeys] at hh ⊢; right; exact hh)
    simp [mapGet, h1, ih h2]

theorem mem_mapKeys_of_get_isSome {β : Type} (m : List (String × β))
    (k : String) (h : (mapGet m k).isSome) : k ∈ mapKeys m := by
  by_contra hk
  rw [mapGet_eq_none_of_not_mem_keys m k hk] at h
  simp at h

theorem mapGet_isSome_of_mem_keys {β : Type} (m : List (String × β))
    (k : String) (h : k ∈ mapKeys m) : (mapGet m k).isSome := by
  induction m with
  | nil => simp [mapKeys] at h
  | cons kv rest ih =>
    obtain ⟨a, b⟩ := kv
    by_cases hak : a = k
    · simp [mapGet, hak]
    · have h' : k ∈ mapKeys rest := by
        rcases (List.mem_cons.mp h) with h1 | h2
        · exact absurd h1.symm hak
        · exact h2
      simp [mapGet, hak, ih h']

theorem mapKeys_set {β : Type} (m : List (String × β)) (k : String) (v : β) :
    mapKeys (mapSet m k v) =
      if mapHas m k then mapKeys m else mapKeys m ++ [k] := by
  induction m with
  | nil => simp [mapSet, mapKeys, mapHas, mapGet]
  | cons kv rest ih =>
    obtain ⟨a, b⟩ := kv
    by_cases hak : a = k
    · subst hak
      simp [mapSet, mapKeys, mapHas, mapGet]
    · have hak' : ¬a = k := hak
      simp only [mapSet, if_neg hak', mapKeys, List.map_cons, mapHas, mapGet,
        if_neg hak']
      rw [show List.map Prod.fst (mapSet rest k v) = mapKeys (mapSet rest k v)
        from rfl, ih]
      by_cases h : mapHas rest k
      · simp [mapHas] at h
        simp [mapHas, h, mapKeys]
      · simp [mapHas] at h
        simp [mapHas, h, mapKeys]

theorem mapKeys_nodup_set {β : Type} (m : List (String × β)) (k : String)
    (v : β) (h : (mapKeys m).Nodup) : (mapKeys (mapSet m k v)).Nodup := by
  rw [mapKeys_set]
  by_cases hh : mapHas m k
  · simpa [hh]
  · have hh' : mapHas m k = false := by simpa using hh
    simp only [hh', if_false, Bool.false_eq_true]
    rw [List.nodup_append]
    refine ⟨h, List.nodup_singleton _, ?_⟩
    intro a ha hb
    simp at hb
    subst hb
    exact hh (by simp [mapHas, mapGet_isSome_of_mem_keys m a ha])

/-! ## Data model (from `types.ts`) -/

/-- Metrics extracted from command output (`ParsedResult.metrics`). -/
structure ParsedMetrics where
  passed : Option Nat := none
  failed : Option Nat := none
  total : Option Nat := none
  duration : Option String := none
  errors : Option Nat := none
  warnings : Option Nat := none

/-- Result from parsing command output (`ParsedResult`). -/
structure ParsedOutput where
  summary : String
  metrics : Option ParsedMetrics := none

/-- Execution strategy for child nodes (`ExecutionStrategy`). -/
inductive Strategy where
  | parallel
  | sequential
  | failFast

/-- A node in the verification tree (`VerificationNode`).  An absent
`children` array and an empty one are indistinguishable to the runner
(both fail the `node.children && node.children.length > 0` test), and
likewise for `reportingDependsOn`, so both are embedded as plain lists. -/
structure VerificationNode where
  key : String
  hasRun : Bool := true
  children : List VerificationNode := []
  strategy : Option Strategy := none
  reportingDependsOn : List String := []
  successLabel : Option String := none
  failureLabel : Option String := none

/-- Result of a single verification task (`TaskResult`).  The optional
`suppressed` field is only ever set to `true` by the runner, so an absent
field and an explicit `false` are indistinguishable; it is embedded as a
`Bool` defaulting to `false`. -/
structure TaskResult where
  key : String
  path : String
  ok : Bool
  code : Int
  durationMs : Nat
  output : String
  summaryLine : String
  metrics : Option ParsedMetrics := none
  suppressed : Bool := false
  suppressedBy : Option String := none
  children : List TaskResult := []

/-! ## Reporting dependency tracker (from `runner.ts`) -/

/-- JS `Set.add`: insert if absent, keeping insertion order. -/
def setAdd (s : List String) (x : String) : List String :=
  if x ∈ s then s else s ++ [x]

/-- The mutable fields of `ReportingDependencyTracker`.  A registered
process is represented by its optional `pid`; `waiters` holds, per
identifier, the number of registered resume callbacks. -/
structure TrackerState where
  results : List (String × TaskResult) := []
  waiters : List (String × Nat) := []
  pathToKey : List (String × String) := []
  keyToPath : List (String × String) := []
  dependencies : List (String × List String) := []
  reverseDeps : List (String × List String) := []
  processes : List (String × Option Nat) := []
  killedPaths : List String := []

/-- The tracker state with all maps empty (a freshly constructed
`ReportingDependencyTracker`). -/
def emptyTracker : TrackerState := {}

theorem VerificationNode.sizeOf_children_lt (n : VerificationNode) :
    sizeOf n.children < sizeOf n := by
  cases n with
  | mk key hasRun children strategy rdo sl fl => simp; omega

theorem VerificationNode.sizeOf_children_lt_sum (node : VerificationNode)
    (rest : List VerificationNode) :
    sizeOf node.children < 1 + sizeOf node + sizeOf rest := by
  have h := VerificationNode.sizeOf_children_lt node
  omega

/-- The recursive tree walk of `ReportingDependencyTracker.initialize`:
records every path and key mapping and every nonempty
`reportingDependsOn` list, recursing into children. -/
def initWalk (st : TrackerState) (parentPath : String) :
    List VerificationNode → TrackerState
  | [] => st
  | node :: rest =>
    let path := if parentPath ≠ "" then parentPath ++ ":" ++ node.key
      else node.key
    let st1 := { st with
      pathToKey := mapSet st.pathToKey path node.key
      keyToPath := mapSet st.keyToPath node.key path }
    let st2 := if node.reportingDependsOn.length > 0 then
        { st1 with
          dependencies := mapSet st1.dependencies path node.reportingDependsOn }
      else st1
    let st3 := initWalk st2 path node.children
    initWalk st3 parentPath rest
termination_by nodes => sizeOf nodes
decreasing_by
  all_goals simp_wf
  all_goals exact VerificationNode.sizeOf_children_lt_sum node rest

/-- `ReportingDependencyTracker.resolveDependency`: exact path match
first, then key match, else unresolved. -/
def resolveDependency (st : TrackerState) (dep : String) : Option String :=
  if mapHas st.pathToKey dep then some dep
  else if mapHas st.keyToPath dep then mapGet st.keyToPath dep
  else none

/-- Inner loop of `buildReverseDeps`: push `path` onto the reverse list of
every resolvable dependency. -/
def addRevForDeps (st : TrackerState) (path : String) :
    List String → TrackerState
  | [] => st
  | dep :: deps =>
    let st2 := match resolveDependency st dep with
      | some resolvedDep =>
        let existing := mapGetD st.reverseDeps resolvedDep []
        { st with
          reverseDeps := mapSet st.reverseDeps resolvedDep (existing ++ [path]) }
      | none => st
    addRevForDeps st2 path deps

/-- Outer loop of `buildReverseDeps` over the dependency map entries. -/
def buildRevGo (st : TrackerState) :
    List (String × List String) → TrackerState
  | [] => st
  | (path, deps) :: rest => buildRevGo (addRevForDeps st path deps) rest

/-- `ReportingDependencyTracker.buildReverseDeps`. -/
def buildReverseDeps (st : TrackerState) : TrackerState :=
  buildRevGo st st.dependencies

/-! ### Cycle validation (`validateNoCycles`) -/

/-- The DFS coloring state local to `validateNoCycles` (`colors` and
`parent` maps).  Colors are `0` (WHITE), `1` (GRAY), `2` (BLACK). -/
structure DfsState where
  colors : List (String × Nat) := []
  parent : List (String × String) := []

/-- `colors.get(path) ?? WHITE`. -/
def colorOf (s : DfsState) (p : String) : Nat := mapGetD s.colors p 0

/-- The `while (current !== depPath)` walk of the cycle reconstruction,
collecting the unshifted entries in final order (fuel-bounded). -/
def cycleWalk (parent : List (String × String)) :
    Nat → String → String → List String
  | 0, _, _ => []
  | fuel + 1, current, depPath =>
    if current = depPath then []
    else cycleWalk parent fuel (mapGetD parent current "") depPath ++ [current]

/-- The cycle-path reconstruction of `validateNoCycles` (the
`cycle.flatten(" → ")` string). -/
def reconstructCycle (parent : List (String × String)) (fuel : Nat)
    (path depPath : String) : String :=
  String.intercalate " → "
    (depPath :: (cycleWalk parent fuel path depPath ++ [depPath]))

mutual

/-- The recursive `dfs` closure of `validateNoCycles`: mark `path` GRAY
and process its dependency list.  `fuel` only bounds the recursion depth;
`dfs_fuel_spec` below shows the chosen fuel is never exhausted. -/
def dfsGo (m : TrackerState) : Nat → DfsState → String → DfsState × Option String
  | 0, s, _ => (s, none)
  | fuel + 1, s, path =>
    let s1 : DfsState := { s with colors := mapSet s.colors path 1 }
    dfsLoop m fuel s1 path (mapGetD m.dependencies path [])
termination_by fuel _ _ => (fuel, 0)

/-- The `for (const dep of deps)` loop of the `dfs` closure, ending with
the BLACK marking of `path`. -/
def dfsLoop (m : TrackerState) : Nat → DfsState → String → List String →
    DfsState × Option String
  | _, s, path, [] => ({ s with colors := mapSet s.colors path 2 }, none)
  | fuel, s, path, dep :: deps =>
    match resolveDependency m dep with
    | none => dfsLoop m fuel s path deps
    | some depPath =>
      let color := colorOf s depPath
      if color = 1 then
        (s, some (reconstructCycle s.parent (s.colors.length + 1) path depPath))
      else if color = 0 then
        let s2 : DfsState := { s with parent := mapSet s.parent depPath path }
        match dfsGo m fuel s2 depPath with
        | (s3, some cyc) => (s3, some cyc)
        | (s3, none) => dfsLoop m fuel s3 path deps
      else dfsLoop m fuel s path deps
termination_by fuel _ _ deps => (fuel, deps.length + 1)

end

/-- The `for (const path of this.pathToKey.keys())` loop of
`validateNoCycles`. -/
def validateLoop (m : TrackerState) (fuel : Nat) :
    List String → DfsState → Option String
  | [], _ => none
  | p :: ps, s =>
    if colorOf s p = 0 then
      match dfsGo m fuel s p with
      | (_, some cyc) => some cyc
      | (s2, none) => validateLoop m fuel ps s2
    else validateLoop m fuel ps s

/-- The `colors.set(path, WHITE)` initialization loop. -/
def initColors (paths : List String) : List (String × Nat) :=
  paths.map (fun p => (p, 0))

/-- `ReportingDependencyTracker.validateNoCycles`: returns the cycle
string when a cycle is found, else `none`. -/
def validateNoCycles (m : TrackerState) : Option String :=
  let paths := mapKeys m.pathToKey
  validateLoop m (paths.length + 1) paths
    { colors := initColors paths, parent := [] }

/-- `ReportingDependencyTracker.initialize` at the root level: the tree
walk, then cycle validation (throwing on a cycle), then the reverse
dependency map. -/
def initTracker (nodes : List VerificationNode) : Except String TrackerState :=
  let m := initWalk emptyTracker "" nodes
  match validateNoCycles m with
  | some cyc =>
    Except.error ("Circular reporting dependency detected: " ++ cyc)
  | none => Except.ok (buildReverseDeps m)

/-! ### Result recording, waiting, and cancellation -/

/-- `ReportingDependencyTracker.wasKilled`. -/
def wasKilled (st : TrackerState) (path : String) : Bool :=
  st.killedPaths.contains path

/-- `ReportingDependencyTracker.registerProcess` (the handle is its
optional `pid`). -/
def registerProcess (st : TrackerState) (path : String) (pid : Option Nat) :
    TrackerState :=
  { st with processes := mapSet st.processes path pid }

/-- `ReportingDependencyTracker.unregisterProcess`. -/
def unregisterProcess (st : TrackerState) (path : String) : TrackerState :=
  { st with processes := mapDelete st.processes path }

/-- The `for (const depPath of dependents)` loop of `killDependents`:
marks each dependent with a live registered process as killed and emits a
`treeKill(pid, "SIGTERM")` signal for it. -/
def killDepGo (st : TrackerState) :
    List String → TrackerState × List (Nat × String)
  | [] => (st, [])
  | depPath :: rest =>
    match mapGet st.processes depPath with
    | some (some pid) =>
      let st2 := { st with killedPaths := setAdd st.killedPaths depPath }
      let out := killDepGo st2 rest
      (out.1, (pid, "SIGTERM") :: out.2)
    | _ => killDepGo st rest

/-- `ReportingDependencyTracker.killDependents`: iterate the reverse-edge
list of the failed path.  Returns the new state and the kill signals
sent. -/
def killDependents (st : TrackerState) (failedPath : String) :
    TrackerState × List (Nat × String) :=
  killDepGo st (mapGetD st.reverseDeps failedPath [])

/-- `ReportingDependencyTracker.recordResult`: store the result by path
(`Map.set`), kill dependents when it failed, then resume the waiters
registered under the path and (when different) under the key.  Returns
the new state and the kill signals sent. -/
def recordResult (st : TrackerState) (result : TaskResult) :
    TrackerState × List (Nat × String) :=
  let st1 := { st with results := mapSet st.results result.path result }
  let killed := if !result.ok then killDependents st1 result.path
    else (st1, [])
  let st2 := killed.1
  let st3 := { st2 with waiters := mapDelete st2.waiters result.path }
  let st4 := if result.key ≠ result.path then
      { st3 with waiters := mapDelete st3.waiters result.key }
    else st3
  (st4, killed.2)

/-- The identifiers whose waiters a call to `recordResult` resumes: the
result path, and the result key when it differs. -/
def notifiedIdentifiers (result : TaskResult) : List String :=
  result.path :: (if result.key ≠ result.path then [result.key] else [])

/-- `waitForResult(pathOrKey)` resolves immediately: a result exists
under the resolved path, or under the raw identifier itself.  When this
is `false` the promise suspends until a `recordResult` call resumes a
waiter registered under the raw identifier. -/
def waitForResultReady (st : TrackerState) (pathOrKey : String) : Bool :=
  (match resolveDependency st pathOrKey with
   | some resolvedPath => mapHas st.results resolvedPath
   | none => false)
  || mapHas st.results pathOrKey

/-- `waitForDependencies(path)` resolves immediately: no declared
dependency list (or an empty one), or every declared identifier is
already available. -/
def waitForDependenciesReady (st : TrackerState) (path : String) : Bool :=
  match mapGet st.dependencies path with
  | none => true
  | some deps => deps.isEmpty || deps.all (waitForResultReady st)

/-- The waiter registrations performed by a `waitForDependencies(path)`
call that does not resolve immediately: one waiter per not-yet-available
declared identifier, keyed by the raw identifier. -/
def registerWaiters (st : TrackerState) (path : String) : TrackerState :=
  match mapGet st.dependencies path with
  | none => st
  | some deps =>
    deps.foldl (fun acc dep =>
      if waitForResultReady acc dep then acc
      else
        let n := mapGetD acc.waiters dep 0
        { acc with waiters := mapSet acc.waiters dep (n + 1) }) st

/-- `ReportingDependencyTracker.hasDependencies`. -/
def hasDependencies (st : TrackerState) (path : String) : Bool :=
  match mapGet st.dependencies path with
  | none => false
  | some deps => !deps.isEmpty

/-- The `for (const dep of deps)` loop of `getFailedDependency`. -/
def gfdLoop (st : TrackerState) : List String → Option String
  | [] => none
  | dep :: deps =>
    match resolveDependency st dep with
    | none => gfdLoop st deps
    | some resolvedPath =>
      match mapGet st.results resolvedPath with
      | some r => if !r.ok then some resolvedPath else gfdLoop st deps
      | none => gfdLoop st deps

/-- `ReportingDependencyTracker.getFailedDependency`. -/
def getFailedDependency (st : TrackerState) (path : String) : Option String :=
  match mapGet st.dependencies path with
  | none => none
  | some deps => if deps.isEmpty then none else gfdLoop st deps

/-! ## Command executor (from `executeCommand`) -/

/-- What `executeCommand` resolves with. -/
structure ExecResult where
  code : Int
  output : String
  durationMs : Nat
  killed : Bool

/-- How the spawned process ends: a `close` event carrying the exit code
and signal (either may be null), or an `error` event (spawn failure,
e.g. binary not found). -/
inductive SpawnOutcome where
  | close (code : Option Int) (signal : Option String) (output : String)
      (durationMs : Nat)
  | errored (message : String) (durationMs : Nat)

/-- `executeCommand`: the `close` handler classifies the process as
killed when the signal was SIGTERM, the exit code was 143, or the
tracker marked the path killed; the `error` handler resolves (never
throws) with exit code 1 and a synthetic diagnostic message. -/
def executeCommand (tracker : Option TrackerState) (path : Option String)
    (outcome : SpawnOutcome) : ExecResult :=
  match outcome with
  | SpawnOutcome.close code signal output durationMs =>
    { code := code.getD 1
      output := output
      durationMs := durationMs
      killed := signal == some "SIGTERM" || code == some 143 ||
        (match tracker with
         | some t => wasKilled t (path.getD "")
         | none => false) }
  | SpawnOutcome.errored message durationMs =>
    { code := 1
      output := "Failed to execute command: " ++ message
      durationMs := durationMs
      killed := false }

/-! ## Tree scheduler (from `VerificationRunner`) -/

/-- `buildPath`. -/
def buildPath (parentPath key : String) : String :=
  if parentPath ≠ "" then parentPath ++ ":" ++ key else key

/-- `matchesFilter`: no filters (or an empty list) matches everything;
otherwise exact match or colon-prefix match. -/
def matchesFilter (path : String) (filters : Option (List String)) : Bool :=
  match filters with
  | none => true
  | some fs => fs.isEmpty || fs.any (fun f => path == f ||
      path.startsWith (f ++ ":"))

mutual

/-- `hasMatchingDescendant`. -/
def hasMatchingDescendant (node : VerificationNode) (parentPath : String)
    (filters : Option (List String)) : Bool :=
  let path := buildPath parentPath node.key
  matchesFilter path filters ||
    hasMatchingDescendantList node.children path filters
termination_by (sizeOf node, 1)
decreasing_by
  all_goals exact Prod.Lex.left _ _ (VerificationNode.sizeOf_children_lt node)

/-- The `node.children.some(...)` part of `hasMatchingDescendant`. -/
def hasMatchingDescendantList (nodes : List VerificationNode)
    (path : String) (filters : Option (List String)) : Bool :=
  match nodes with
  | [] => false
  | n :: rest => hasMatchingDescendant n path filters ||
      hasMatchingDescendantList rest path filters
termination_by (sizeOf nodes, 0)
decreasing_by
  all_goals simp_wf
  all_goals apply Prod.Lex.left
  all_goals try simp
  all_goals omega

end

/-- Scheduler events, for the ordering claims. -/
inductive Event where
  | taskStart (path : String)
  | parseOutput (path : String)
  | waitDeps (path : String)
  | taskComplete (path : String)
deriving DecidableEq

/-- The `sequential` branch of `runNodes`, with the per-child results
and event traces of the abstract child execution `g` (`runNode`)
concatenated in array order. -/
def runNodesSequential (g : VerificationNode → TaskResult × List Event) :
    List VerificationNode → List TaskResult × List Event
  | [] => ([], [])
  | n :: rest =>
    let out := g n
    let tail := runNodesSequential g rest
    (out.1 :: tail.1, out.2 ++ tail.2)

/-- The `fail-fast` branch of `runNodes`: push each result and stop after
the first child whose result is not ok. -/
def runNodesFailFast (g : VerificationNode → TaskResult × List Event) :
    List VerificationNode → List TaskResult × List Event
  | [] => ([], [])
  | n :: rest =>
    let out := g n
    if !out.1.ok then ([out.1], out.2)
    else
      let tail := runNodesFailFast g rest
      (out.1 :: tail.1, out.2 ++ tail.2)

/-- `runNodes`: filter the nodes, then dispatch on the strategy.  The
result list of the `parallel` branch (`Promise.all`) is in array order;
its event interleaving is unordered and is not modelled. -/
def runNodes (g : VerificationNode → TaskResult × List Event)
    (filters : Option (List String)) (nodes : List VerificationNode)
    (parentPath : String) (strategy : Strategy) : List TaskResult :=
  let filtered := nodes.filter
    (fun n => hasMatchingDescendant n parentPath filters)
  match strategy with
  | Strategy.parallel => filtered.map (fun n => (g n).1)
  | Strategy.sequential => (runNodesSequential g filtered).1
  | Strategy.failFast => (runNodesFailFast g filtered).1

/-- The group-node aggregation of `runNode`: combine the child results
into the group result. -/
def groupAggregate (node : VerificationNode) (path : String)
    (durationMs : Nat) (childResults : List TaskResult) : TaskResult :=
  let allOk := childResults.all (fun r => r.ok || r.suppressed)
  let allSuppressed :=
    decide (childResults.length > 0) && childResults.all (fun r => r.suppressed)
  let base : TaskResult :=
    { key := node.key
      path := path
      ok := allOk
      code := if allOk then 0 else 1
      durationMs := durationMs
      output := ""
      summaryLine := if allOk then
          node.successLabel.getD (node.key ++ ": all passed")
        else node.failureLabel.getD (node.key ++ ": some failed")
      children := childResults }
  if allSuppressed then
    { base with
      suppressed := true
      suppressedBy := match childResults with
        | c :: _ => c.suppressedBy
        | [] => none }
  else base

/-- The leaf-node tail of `runNode`, after `executeCommand` resolves:
when the executor reports the process was killed, wait for the
dependencies and emit a suppressed result attributing the termination
(no output parsing); otherwise parse the output, build the result, and
apply the dependency-based suppression check.  Returns the emitted
result, the scheduler events, and the tracker state after
`recordResult`. -/
def leafAfterExec (st : TrackerState) (node : VerificationNode)
    (path : String) (exec : ExecResult)
    (parseOutput : String → Int → ParsedOutput) :
    TaskResult × List Event × TrackerState :=
  let ok := exec.code == 0
  if exec.killed then
    let failedDep := getFailedDependency st path
    let result : TaskResult :=
      { key := node.key
        path := path
        ok := false
        code := exec.code
        durationMs := exec.durationMs
        output := exec.output
        summaryLine := node.key ++ ": terminated"
        suppressed := true
        suppressedBy := some (failedDep.getD "unknown")
        children := [] }
    let recorded := recordResult st result
    (result, [Event.waitDeps path, Event.taskComplete path], recorded.1)
  else
    let parsed := parseOutput exec.output exec.code
    let summaryLine := if ok then
        match node.successLabel with
        | some l => node.key ++ ": " ++ l
        | none => node.key ++ ": " ++ parsed.summary
      else
        match node.failureLabel with
        | some l => node.key ++ ": " ++ l
        | none => node.key ++ ": " ++ parsed.summary
    let base : TaskResult :=
      { key := node.key
        path := path
        ok := ok
        code := exec.code
        durationMs := exec.durationMs
        output := exec.output
        summaryLine := summaryLine
        metrics := parsed.metrics
        children := [] }
    if hasDependencies st path then
      let result := if !ok then
          match getFailedDependency st path with
          | some failedDep =>
            { base with suppressed := true, suppressedBy := some failedDep }
          | none => base
        else base
      let recorded := recordResult st result
      (result, [Event.parseOutput path, Event.waitDeps path,
        Event.taskComplete path], recorded.1)
    else
      let recorded := recordResult st base
      (base, [Event.parseOutput path, Event.taskComplete path], recorded.1)

/-! ## The resolved dependency edge relation -/

/-- The resolved reporting-dependency edge: `edgeTo st u v` holds when
some declared dependency identifier of `u` resolves to `v`. -/
def edgeTo (st : TrackerState) (u v : String) : Prop :=
  ∃ d ∈ mapGetD st.dependencies u [], resolveDependency st d = some v

instance (st : TrackerState) (u v : String) : Decidable (edgeTo st u v) := by
  unfold edgeTo
  exact List.decidableBEx _ _

/-- A cycle in the resolved edge set: some path leads from a node back to
itself through one or more edges. -/
def hasCycle (st : TrackerState) : Prop :=
  ∃ v, Relation.TransGen (edgeTo st) v v

/-! ## Helper lemmas about the tracker operations -/

theorem mapGet_delete_other {β : Type} (m : List (String × β)) {k k' : String}
    (h : k' ≠ k) : mapGet (mapDelete m k) k' = mapGet m k' := by
  induction m with
  | nil => simp [mapDelete]
  | cons kv rest ih =>
    obtain ⟨a, b⟩ := kv
    by_cases hak : a = k
    · subst hak
      have h' : ¬a = k' := fun hh => h hh.symm
      simp [mapDelete, mapGet, h']
    · by_cases hk : a = k'
      · subst hk
        simp [mapDelete, mapGet, hak]
      · simp [mapDelete, mapGet, hak, hk, ih]

theorem mem_setAdd (s : List String) (x y : String) :
    y ∈ setAdd s x ↔ y ∈ s ∨ y = x := by
  by_cases h : x ∈ s
  · simp [setAdd, h]
    intro hy
    subst hy
    exact h
  · simp [setAdd, h]

/-- `killDepGo` changes only `killedPaths`. -/
theorem killDepGo_fields (st : TrackerState) (l : List String) :
    (killDepGo st l).1.results = st.results ∧
    (killDepGo st l).1.waiters = st.waiters ∧
    (killDepGo st l).1.pathToKey = st.pathToKey ∧
    (killDepGo st l).1.keyToPath = st.keyToPath ∧
    (killDepGo st l).1.dependencies = st.dependencies ∧
    (killDepGo st l).1.reverseDeps = st.reverseDeps ∧
    (killDepGo st l).1.processes = st.processes := by
  induction l generalizing st with
  | nil => simp [killDepGo]
  | cons q rest ih =>
    cases hq : mapGet st.processes q with
    | none => simpa [killDepGo, hq] using ih st
    | some pid =>
      cases pid with
      | none => simpa [killDepGo, hq] using ih st
      | some p =>
        have := ih { st with killedPaths := setAdd st.killedPaths q }
        simpa [killDepGo, hq] using this

/-- The kill marks of `killDepGo`: a path ends up killed iff it already
was, or it occurs in the dependent list with a live registered process. -/
theorem killDepGo_killed (st : TrackerState) (l : List String) (q : String) :
    q ∈ (killDepGo st l).1.killedPaths ↔
      q ∈ st.killedPaths ∨
        (q ∈ l ∧ ∃ pid, mapGet st.processes q = some (some pid)) := by
  induction l generalizing st with
  | nil => simp [killDepGo]
  | cons x rest ih =>
    cases hx : mapGet st.processes x with
    | none =>
      rw [show killDepGo st (x :: rest) = killDepGo st rest by
        simp [killDepGo, hx]]
      rw [ih st]
      constructor
      · rintro (h | ⟨h1, h2⟩)
        · exact Or.inl h
        · exact Or.inr ⟨List.mem_cons_of_mem x h1, h2⟩
      · rintro (h | ⟨h1, h2⟩)
        · exact Or.inl h
        · rcases List.mem_cons.mp h1 with h1 | h1
          · subst h1
            obtain ⟨pid, hpid⟩ := h2
            rw [hx] at hpid
            cases hpid
          · exact Or.inr ⟨h1, h2⟩
    | some pid =>
      cases pid with
      | none =>
        rw [show killDepGo st (x :: rest) = killDepGo st rest by
          simp [killDepGo, hx]]
        rw [ih st]
        constructor
        · rintro (h | ⟨h1, h2⟩)
          · exact Or.inl h
          · exact Or.inr ⟨List.mem_cons_of_mem x h1, h2⟩
        · rintro (h | ⟨h1, h2⟩)
          · exact Or.inl h
          · rcases List.mem_cons.mp h1 with h1 | h1
            · subst h1
              obtain ⟨pid, hpid⟩ := h2
              rw [hx] at hpid
              cases hpid
            · exact Or.inr ⟨h1, h2⟩
      | some p =>
        have hstep : (killDepGo st (x :: rest)).1 =
            (killDepGo { st with killedPaths := setAdd st.killedPaths x }
              rest).1 := by
          simp [killDepGo, hx]
        rw [hstep, ih { st with killedPaths := setAdd st.killedPaths x }]
        simp only [mem_setAdd]
        constructor
        · rintro ((h | h) | ⟨h1, h2⟩)
          · exact Or.inl h
          · subst h
            exact Or.inr ⟨List.mem_cons_self _ _, ⟨p, hx⟩⟩
          · exact Or.inr ⟨List.mem_cons_of_mem x h1, h2⟩
        · rintro (h | ⟨h1, h2⟩)
          · exact Or.inl (Or.inl h)
          · rcases List.mem_cons.mp h1 with h1 | h1
            · subst h1
              exact Or.inl (Or.inr rfl)
            · exact Or.inr ⟨h1, h2⟩

/-- The signals of `killDepGo`: one SIGTERM per listed dependent with a
live registered process, in list order. -/
theorem killDepGo_signals (st : TrackerState) (l : List String) :
    (killDepGo st l).2 = l.filterMap (fun q =>
      match mapGet st.processes q with
      | some (some pid) => some (pid, "SIGTERM")
      | _ => none) := by
  induction l generalizing st with
  | nil => simp [killDepGo]
  | cons x rest ih =>
    cases hx : mapGet st.processes x with
    | none => simp [killDepGo, hx, ih st]
    | some pid =>
      cases pid with
      | none => simp [killDepGo, hx, ih st]
      | some p =>
        have := ih { st with killedPaths := setAdd st.killedPaths x }
        simp only [killDepGo, hx] at this ⊢
        simp [List.filterMap_cons, hx, this, killDepGo_fields]

/-- `recordResult` updates the result map by `Map.set` on the result
path and leaves all other result entries alone. -/
theorem recordResult_results (st : TrackerState) (r : TaskResult) :
    ((recordResult st r).1).results = mapSet st.results r.path r := by
  unfold recordResult
  by_cases hok : r.ok
  · simp [hok]
    split <;> simp
  · simp [hok, killDependents]
    have h := killDepGo_fields { st with results := mapSet st.results r.path r }
      (mapGetD st.reverseDeps r.path [])
    split <;> simp [h.1]

/-! ## Claim C1: result recording -/

/-- A concrete passing result for path `t`. -/
def c1First : TaskResult :=
  { key := "t", path := "t", ok := true, code := 0, durationMs := 5,
    output := "", summaryLine := "t: passed", children := [] }

/-- A concrete failing result for the same path `t`. -/
def c1Second : TaskResult :=
  { key := "t", path := "t", ok := false, code := 1, durationMs := 9,
    output := "boom", summaryLine := "t: failed", children := [] }

/-- C1 counterexample: `recordResult` is not first-write-wins.  After a
passing result is stored for path `t`, recording a failing result for
the same path replaces the stored result (its `ok` flips from `true` to
`false`), so the first recorded result is overwritten. -/
theorem c1_counterexample :
    (mapGet ((recordResult emptyTracker c1First).1).results "t").map
        TaskResult.ok = some true ∧
      (mapGet ((recordResult ((recordResult emptyTracker c1First).1)
          c1Second).1).results "t").map TaskResult.ok = some false ∧
      c1First.ok = true := by
  refine ⟨by decide, by decide, by decide⟩

/-- C1 amended: `recordResult` stores the result keyed by path with
last-write-wins semantics — a later call for the same path replaces the
stored result, while results recorded under any other path are left
unchanged.  (Append-only behaviour therefore holds only under the
documented calling discipline that `recordResult` is invoked at most
once per path.) -/
theorem c1_recordResult_last_write_wins (st : TrackerState) (r : TaskResult) :
    mapGet ((recordResult st r).1).results r.path = some r ∧
      ∀ p, p ≠ r.path →
        mapGet ((recordResult st r).1).results p = mapGet st.results p := by
  rw [recordResult_results]
  exact ⟨mapGet_set_self _ _ _, fun p hp => mapGet_set_other _ r hp⟩

/-- C1 witness: the amended statement evaluated on the concrete pair of
results above — the second write is stored for `t`, and the unrelated
path `u` is untouched. -/
theorem c1_witness :
    mapGet ((recordResult ((recordResult emptyTracker c1First).1)
        c1Second).1).results c1Second.path = some c1Second ∧
      mapGet ((recordResult ((recordResult emptyTracker c1First).1)
          c1Second).1).results "u" =
        mapGet ((recordResult emptyTracker c1First).1).results "u" :=
  ⟨(c1_recordResult_last_write_wins ((recordResult emptyTracker c1First).1)
      c1Second).1,
    (c1_recordResult_last_write_wins ((recordResult emptyTracker c1First).1)
      c1Second).2 "u" (by decide)⟩

/-! ## Claim C8: terminated classification in `executeCommand` -/

/-- C8: the `close` handler of `executeCommand` classifies the process
as killed iff the termination signal was SIGTERM, or the exit code was
143, or the tracker marked the task path as killed — any one of the
three is sufficient. -/
theorem c8_killed_classification (st : TrackerState) (path : String)
    (code : Option Int) (signal : Option String) (output : String)
    (durationMs : Nat) :
    (executeCommand (some st) (some path)
        (SpawnOutcome.close code signal output durationMs)).killed = true ↔
      signal = some "SIGTERM" ∨ code = some 143 ∨ wasKilled st path = true := by
  simp [executeCommand, Option.getD]
  tauto

/-! ## Claim C10: launch failure handling -/

/-- C10: a spawn error does not escape `executeCommand`: it resolves
with exit code 1, the synthetic diagnostic message in place of the
captured output, and `killed = false`; and under the (default) parallel
strategy every filtered sibling still yields a result — the scheduler
produces one result per filtered node regardless of what any sibling
returned. -/
theorem c10_launch_failure (tracker : Option TrackerState)
    (path : Option String) (message : String) (durationMs : Nat)
    (g : VerificationNode → TaskResult × List Event)
    (filters : Option (List String)) (nodes : List VerificationNode)
    (parentPath : String) :
    executeCommand tracker path (SpawnOutcome.errored message durationMs) =
      { code := 1, output := "Failed to execute command: " ++ message,
        durationMs := durationMs, killed := false } ∧
      (runNodes g filters nodes parentPath Strategy.parallel).length =
        (nodes.filter
          (fun n => hasMatchingDescendant n parentPath filters)).length := by
  constructor
  · rfl
  · simp [runNodes]

/-! ## Claim C4: group aggregation -/

/-- C4: for a group with at least one executed child, the aggregated
group result is ok iff every child is ok or suppressed; it is suppressed
iff all children are suppressed, in which case `suppressedBy` is
inherited from the first child; and a mix of suppressed and
non-suppressed failures yields a failed, non-suppressed group. -/
theorem c4_group_aggregation (node : VerificationNode) (path : String)
    (durationMs : Nat) (childResults : List TaskResult)
    (hne : childResults ≠ []) :
    ((groupAggregate node path durationMs childResults).ok = true ↔
      ∀ r ∈ childResults, r.ok = true ∨ r.suppressed = true) ∧
    ((groupAggregate node path durationMs childResults).suppressed = true ↔
      ∀ r ∈ childResults, r.suppressed = true) ∧
    ((∀ r ∈ childResults, r.suppressed = true) →
      (groupAggregate node path durationMs childResults).suppressedBy =
        (childResults.head hne).suppressedBy) ∧
    ((∃ r ∈ childResults, r.suppressed = true) →
      (∃ r ∈ childResults, r.ok = false ∧ r.suppressed = false) →
      (groupAggregate node path durationMs childResults).ok = false ∧
        (groupAggregate node path durationMs childResults).suppressed =
          false) := by
  by_cases hsup : (decide (childResults.length > 0) &&
      childResults.all (fun r => r.suppressed)) = true
  · have hok : (groupAggregate node path durationMs childResults).ok =
        childResults.all (fun r => r.ok || r.suppressed) := by
      simp only [groupAggregate, hsup, if_true]
    have hsupp : (groupAggregate node path durationMs
        childResults).suppressed = true := by
      simp only [groupAggregate, hsup, if_true]
    have hallsup : ∀ r ∈ childResults, r.suppressed = true := fun r hr =>
      List.all_eq_true.mp ((Bool.and_eq_true _ _).mp hsup).2 r hr
    refine ⟨?_, ?_, ?_, ?_⟩
    · rw [hok]
      simp [List.all_eq_true]
    · rw [hsupp]
      simp only [true_iff]
      exact hallsup
    · intro _
      cases childResults with
      | nil => exact absurd rfl hne
      | cons c rest =>
        simp only [groupAggregate, hsup, if_true]
        rfl
    · rintro ⟨rs, hrs, _⟩ ⟨rf, hrf, hrfok, hrfsup⟩
      have := hallsup rf hrf
      rw [hrfsup] at this
      cases this
  · have hok : (groupAggregate node path durationMs childResults).ok =
        childResults.all (fun r => r.ok || r.suppressed) := by
      simp [groupAggregate, hsup]
    have hsupp : (groupAggregate node path durationMs
        childResults).suppressed = false := by
      simp [groupAggregate, hsup]
    have hnall : ¬∀ r ∈ childResults, r.suppressed = true := by
      intro hcon
      apply hsup
      rw [Bool.and_eq_true]
      refine ⟨?_, List.all_eq_true.mpr (fun r hr => hcon r hr)⟩
      cases childResults with
      | nil => exact absurd rfl hne
      | cons c rest => simp
    refine ⟨?_, ?_, ?_, ?_⟩
    · rw [hok]
      simp [List.all_eq_true]
    · rw [hsupp]
      simp only [Bool.false_eq_true, false_iff]
      exact hnall
    · intro hall
      exact absurd hall hnall
    · rintro _ ⟨rf, hrf, hrfok, hrfsup⟩
      refine ⟨?_, hsupp⟩
      rw [hok]
      cases hb : childResults.all (fun r => r.ok || r.suppressed)
      · rfl
      · have := List.all_eq_true.mp hb rf hrf
        rw [hrfok, hrfsup] at this
        simp at this

/-- A group node with key `g`, for the C4 witness. -/
def c4Node : VerificationNode :=
  { key := "g", children := [] }

/-- A suppressed child result, for the C4 witness. -/
def c4Child : TaskResult :=
  { key := "c", path := "g:c", ok := false, code := 1, durationMs := 2,
    output := "", summaryLine := "c: terminated", suppressed := true,
    suppressedBy := some "root", children := [] }

/-- C4 witness: a group whose single child is suppressed becomes
suppressed itself and inherits the suppressedBy of that first child. -/
theorem c4_witness :
    (groupAggregate c4Node "g" 3 [c4Child]).suppressed = true ∧
      (groupAggregate c4Node "g" 3 [c4Child]).suppressedBy =
        some "root" := by
  have h := c4_group_aggregation c4Node "g" 3 [c4Child] (by simp)
  have hall : ∀ r ∈ [c4Child], r.suppressed = true := by
    intro r hr
    simp at hr
    rw [hr]
    rfl
  refine ⟨h.2.1.mpr hall, ?_⟩
  rw [h.2.2.1 hall]
  rfl

/-! ## Claim C6: sequential and fail-fast ordering -/

theorem runNodesSequential_spec
    (g : VerificationNode → TaskResult × List Event)
    (l : List VerificationNode) :
    runNodesSequential g l =
      (l.map (fun n => (g n).1), (l.map (fun n => (g n).2)).flatten) := by
  induction l with
  | nil => simp [runNodesSequential]
  | cons n rest ih => simp [runNodesSequential, ih]

theorem runNodesFailFast_results
    (g : VerificationNode → TaskResult × List Event)
    (l : List VerificationNode) :
    (runNodesFailFast g l).1 =
      (l.map (fun n => (g n).1)).takeWhile (fun r => r.ok) ++
        ((l.map (fun n => (g n).1)).drop
          ((l.map (fun n => (g n).1)).takeWhile (fun r => r.ok)).length).take
          1 := by
  induction l with
  | nil => simp [runNodesFailFast]
  | cons n rest ih =>
    by_cases hok : (g n).1.ok
    · simp only [runNodesFailFast, hok, Bool.not_true, List.map_cons]
      rw [List.takeWhile_cons_of_pos (by simpa using hok)]
      simp only [List.length_cons, List.drop_succ_cons]
      simpa using ih
    · have hok' : (g n).1.ok = false := by simpa using hok
      simp only [runNodesFailFast, hok', Bool.not_false, List.map_cons]
      rw [List.takeWhile_cons_of_neg (by simpa using hok)]
      simp

theorem runNodesFailFast_trace
    (g : VerificationNode → TaskResult × List Event)
    (l : List VerificationNode) :
    (runNodesFailFast g l).2 =
      ((l.take (runNodesFailFast g l).1.length).map (fun n => (g n).2)).flatten := by
  induction l with
  | nil => simp [runNodesFailFast]
  | cons n rest ih =>
    by_cases hok : (g n).1.ok
    · simp only [runNodesFailFast, hok, Bool.not_true, Bool.false_eq_true,
        if_false, List.length_cons, List.take_succ_cons, List.map_cons,
        List.flatten_cons]
      rw [ih]
    · have hok' : (g n).1.ok = false := by simpa using hok
      simp [runNodesFailFast, hok']

/-- C6: under `sequential` the scheduler runs every filtered child one
after another in array order (results in array order, the event trace is
the concatenation of the child traces in that order, so no two children
overlap); under `fail-fast` it runs the filtered children in order but
stops after the first child whose result is not ok: the result list is
exactly the prefix of the filtered children through the first failure,
and the trace contains the events of exactly that prefix, so no later
sibling is ever started. -/
theorem c6_sequential_fail_fast_ordering
    (g : VerificationNode → TaskResult × List Event)
    (filters : Option (List String)) (nodes : List VerificationNode)
    (parentPath : String) :
    (runNodes g filters nodes parentPath Strategy.sequential =
        ((nodes.filter (fun n => hasMatchingDescendant n parentPath
          filters)).map (fun n => (g n).1)) ∧
      (runNodesSequential g (nodes.filter
          (fun n => hasMatchingDescendant n parentPath filters))).2 =
        ((nodes.filter (fun n => hasMatchingDescendant n parentPath
          filters)).map (fun n => (g n).2)).flatten) ∧
    (runNodes g filters nodes parentPath Strategy.failFast =
        (((nodes.filter (fun n => hasMatchingDescendant n parentPath
            filters)).map (fun n => (g n).1)).takeWhile (fun r => r.ok) ++
          (((nodes.filter (fun n => hasMatchingDescendant n parentPath
            filters)).map (fun n => (g n).1)).drop
            (((nodes.filter (fun n => hasMatchingDescendant n parentPath
              filters)).map (fun n => (g n).1)).takeWhile
                (fun r => r.ok)).length).take 1) ∧
      (runNodesFailFast g (nodes.filter
          (fun n => hasMatchingDescendant n parentPath filters))).2 =
        (((nodes.filter (fun n => hasMatchingDescendant n parentPath
            filters)).take
          (runNodesFailFast g (nodes.filter
            (fun n => hasMatchingDescendant n parentPath
              filters))).1.length).map (fun n => (g n).2)).flatten) := by
  refine ⟨⟨?_, ?_⟩, ?_, ?_⟩
  · simp [runNodes, runNodesSequential_spec]
  · rw [runNodesSequential_spec]
  · simp [runNodes, runNodesFailFast_results]
  · exact runNodesFailFast_trace g _

/-! ## Claim C9: terminated leaves are suppressed, not parsed -/

/-- The first declared dependency (in declaration order) whose resolved
path has a recorded failing result. -/
def firstFailedDep (st : TrackerState) (path : String) : Option String :=
  (mapGetD st.dependencies path []).findSome? (fun d =>
    match resolveDependency st d with
    | some p =>
      match mapGet st.results p with
      | some r => if r.ok then none else some p
      | none => none
    | none => none)

theorem gfdLoop_eq_findSome (st : TrackerState) (l : List String) :
    gfdLoop st l = l.findSome? (fun d =>
      match resolveDependency st d with
      | some p =>
        match mapGet st.results p with
        | some r => if r.ok then none else some p
        | none => none
      | none => none) := by
  induction l with
  | nil => simp [gfdLoop]
  | cons d ds ih =>
    rw [List.findSome?_cons]
    cases hres : resolveDependency st d with
    | none => simp [gfdLoop, hres, ih]
    | some p =>
      cases hr : mapGet st.results p with
      | none => simp [gfdLoop, hres, hr, ih]
      | some r =>
        by_cases hok : r.ok
        · simp [gfdLoop, hres, hr, hok, ih]
        · have hok' : r.ok = false := by simpa using hok
          simp [gfdLoop, hres, hr, hok', ih]

theorem getFailedDependency_eq_firstFailedDep (st : TrackerState)
    (path : String) :
    getFailedDependency st path = firstFailedDep st path := by
  unfold getFailedDependency firstFailedDep
  cases h : mapGet st.dependencies path with
  | none => simp [mapGetD, h]
  | some deps =>
    cases deps with
    | nil => simp [mapGetD, h, gfdLoop]
    | cons d ds => simp [mapGetD, h, gfdLoop_eq_findSome]

/-- C9: when the executor reports the leaf was terminated, the scheduler
emits the events wait-for-dependencies and task-complete — in particular
it never invokes the output parser — and the emitted result has
`ok := false`, `suppressed := true`, and `suppressedBy` equal to the
first declared dependency whose recorded result failed, or the sentinel
`unknown` when none is found. -/
theorem c9_terminated_leaf (st : TrackerState) (node : VerificationNode)
    (path : String) (code : Int) (output : String) (durationMs : Nat)
    (parseFn : String → Int → ParsedOutput) :
    (leafAfterExec st node path
        { code := code, output := output, durationMs := durationMs,
          killed := true } parseFn).2.1 =
      [Event.waitDeps path, Event.taskComplete path] ∧
    Event.parseOutput path ∉ (leafAfterExec st node path
        { code := code, output := output, durationMs := durationMs,
          killed := true } parseFn).2.1 ∧
    (leafAfterExec st node path
        { code := code, output := output, durationMs := durationMs,
          killed := true } parseFn).1.ok = false ∧
    (leafAfterExec st node path
        { code := code, output := output, durationMs := durationMs,
          killed := true } parseFn).1.suppressed = true ∧
    (leafAfterExec st node path
        { code := code, output := output, durationMs := durationMs,
          killed := true } parseFn).1.suppressedBy =
      some ((firstFailedDep st path).getD "unknown") := by
  refine ⟨rfl, by simp [leafAfterExec], rfl, rfl, ?_⟩
  show some ((getFailedDependency st path).getD "unknown") = _
  rw [getFailedDependency_eq_firstFailedDep]

/-! ## Claim C2: waitForDependencies and unresolved identifiers -/

/-- The tree for the C2 analysis: `b` declares a dependency on the
identifier `zzz`, which matches no path and no key. -/
def c2Nodes : List VerificationNode :=
  [{ key := "a", children := [] },
   { key := "b", children := [], reportingDependsOn := ["zzz"] }]

/-- The recorded passing result of task `a`. -/
def c2ResultA : TaskResult :=
  { key := "a", path := "a", ok := true, code := 0, durationMs := 1,
    output := "", summaryLine := "a: passed", children := [] }

/-- The tracker after initializing the C2 tree and recording the result
of `a` (so every task except `b` itself has a recorded result). -/
def c2State : TrackerState :=
  (recordResult (buildReverseDeps (initWalk emptyTracker "" c2Nodes))
    c2ResultA).1

/-- C2 counterexample: the only declared dependency of `b` is the
unresolvable identifier `zzz`, and every resolvable dependency of `b`
(there are none) has a recorded result; yet `waitForDependencies("b")`
does not resolve — it registers a waiter under `zzz`, and no task of the
tree can ever notify that identifier (no path or key equals it), so the
call suspends forever instead of omitting the unresolved edge. -/
theorem c2_counterexample :
    mapGet c2State.dependencies "b" = some ["zzz"] ∧
    resolveDependency c2State "zzz" = none ∧
    mapHas c2State.results "zzz" = false ∧
    mapHas c2State.results "a" = true ∧
    waitForDependenciesReady c2State "b" = false ∧
    mapGetD (registerWaiters c2State "b").waiters "zzz" 0 = 1 ∧
    (∀ e ∈ c2State.pathToKey, "zzz" ∉ notifiedIdentifiers
      { key := e.2, path := e.1, ok := true, code := 0, durationMs := 0,
        output := "", summaryLine := "", children := [] }) := by
  simp [c2State, c2Nodes, c2ResultA, initWalk, buildReverseDeps, buildRevGo,
    addRevForDeps, recordResult, killDependents, killDepGo,
    resolveDependency, mapGet, mapSet, mapHas, mapGetD, mapDelete,
    emptyTracker, waitForDependenciesReady, waitForResultReady,
    registerWaiters, notifiedIdentifiers]

/-- C2 amended: `waitForDependencies(path)` resolves immediately when
`path` has no declared dependency list, or when every declared
identifier already has a recorded result (under its resolved path or
under the raw identifier); but a declared identifier that resolves to
nothing and has no recorded result under it makes the call suspend, and
`recordResult` resumes only waiters registered under the recorded
result path or key, so a waiter under any other identifier survives
every recording. -/
theorem c2_wait_for_dependencies (st : TrackerState) (path : String) :
    (mapGetD st.dependencies path [] = [] →
      waitForDependenciesReady st path = true) ∧
    ((∀ d ∈ mapGetD st.dependencies path [],
        waitForResultReady st d = true) →
      waitForDependenciesReady st path = true) ∧
    (∀ d ∈ mapGetD st.dependencies path [], resolveDependency st d = none →
      mapHas st.results d = false →
      waitForDependenciesReady st path = false) ∧
    (∀ r : TaskResult, ∀ x, x ∉ notifiedIdentifiers r →
      mapGet ((recordResult st r).1).waiters x = mapGet st.waiters x) := by
  refine ⟨?_, ?_, ?_, ?_⟩
  · intro h
    unfold waitForDependenciesReady
    cases hd : mapGet st.dependencies path with
    | none => rfl
    | some deps =>
      rw [show deps = [] by simpa [mapGetD, hd] using h]
      rfl
  · intro h
    unfold waitForDependenciesReady
    cases hd : mapGet st.dependencies path with
    | none => rfl
    | some deps =>
      have hall : deps.all (waitForResultReady st) = true :=
        List.all_eq_true.mpr (fun d hdm => by
          simpa using h d (by simpa [mapGetD, hd] using hdm))
      simp [hall]
  · intro d hdm hres hhas
    cases hd : mapGet st.dependencies path with
    | none => simp [mapGetD, hd] at hdm
    | some deps =>
      have hdm' : d ∈ deps := by simpa [mapGetD, hd] using hdm
      unfold waitForDependenciesReady
      rw [hd]
      have hne : deps.isEmpty = false := by
        cases deps with
        | nil => simp at hdm'
        | cons x xs => rfl
      have hready : waitForResultReady st d = false := by
        unfold waitForResultReady
        rw [hres, hhas]
        rfl
      have hall : deps.all (waitForResultReady st) = false := by
        rw [List.all_eq_false]
        exact ⟨d, hdm', by rw [hready]; simp⟩
      simp [hne, hall]
  · intro r x hx
    have hxp : x ≠ r.path := fun h => hx (by
      rw [h]
      exact List.mem_cons_self _ _)
    unfold recordResult
    by_cases hkey : r.key ≠ r.path
    · have hxk : x ≠ r.key := fun h => hx (by
        rw [h]
        simp [notifiedIdentifiers, hkey])
      have hw := (killDepGo_fields
        { st with results := mapSet st.results r.path r }
        (mapGetD { st with results := mapSet st.results r.path r }.reverseDeps
          r.path [])).2.1
      by_cases hok : r.ok
      · simp only [hok, Bool.not_true, Bool.false_eq_true, if_false,
          if_pos hkey]
        rw [mapGet_delete_other _ hxk, mapGet_delete_other _ hxp]
      · have hok' : r.ok = false := by simpa using hok
        simp only [hok', Bool.not_false, if_true, if_pos hkey,
          killDependents]
        rw [mapGet_delete_other _ hxk, mapGet_delete_other _ hxp, hw]
    · have hw := (killDepGo_fields
        { st with results := mapSet st.results r.path r }
        (mapGetD { st with results := mapSet st.results r.path r }.reverseDeps
          r.path [])).2.1
      by_cases hok : r.ok
      · simp only [hok, Bool.not_true, Bool.false_eq_true, if_false,
          if_neg hkey]
        rw [mapGet_delete_other _ hxp]
      · have hok' : r.ok = false := by simpa using hok
        simp only [hok', Bool.not_false, if_true, if_neg hkey,
          killDependents]
        rw [mapGet_delete_other _ hxp, hw]

/-- C2 witness: on the concrete C2 tracker, the path `a` (no declared
dependencies) is ready immediately; `b` (whose only identifier is
unresolved with no recorded result) is not ready; and recording a
result for `b` leaves a waiter registered under `zzz` untouched. -/
theorem c2_witness :
    waitForDependenciesReady c2State "a" = true ∧
    waitForDependenciesReady c2State "b" = false ∧
    mapGet ((recordResult c2State
        { key := "b", path := "b", ok := false, code := 1, durationMs := 2,
          output := "", summaryLine := "b: failed",
          children := [] }).1).waiters "zzz" =
      mapGet c2State.waiters "zzz" := by
  refine ⟨(c2_wait_for_dependencies c2State "a").1 ?_,
    (c2_wait_for_dependencies c2State "b").2.2.1 "zzz" ?_ ?_ ?_,
    (c2_wait_for_dependencies c2State "b").2.2.2
      { key := "b", path := "b", ok := false, code := 1, durationMs := 2,
        output := "", summaryLine := "b: failed", children := [] }
      "zzz" ?_⟩
  · simp [c2State, c2Nodes, c2ResultA, initWalk, buildReverseDeps, buildRevGo,
      addRevForDeps, recordResult, killDependents, killDepGo,
      resolveDependency, mapGet, mapSet, mapHas, mapGetD, mapDelete,
      emptyTracker]
  · simp [c2State, c2Nodes, c2ResultA, initWalk, buildReverseDeps, buildRevGo,
      addRevForDeps, recordResult, killDependents, killDepGo,
      resolveDependency, mapGet, mapSet, mapHas, mapGetD, mapDelete,
      emptyTracker]
  · simp [c2State, c2Nodes, c2ResultA, initWalk, buildReverseDeps, buildRevGo,
      addRevForDeps, recordResult, killDependents, killDepGo,
      resolveDependency, mapGet, mapSet, mapHas, mapGetD, mapDelete,
      emptyTracker]
  · simp [c2State, c2Nodes, c2ResultA, initWalk, buildReverseDeps, buildRevGo,
      addRevForDeps, recordResult, killDependents, killDepGo,
      resolveDependency, mapGet, mapSet, mapHas, mapGetD, mapDelete,
      emptyTracker]
  · simp [notifiedIdentifiers]

/-! ## Structural lemmas about `initialize` (the tree walk) -/

theorem mapGet_eq_some_of_mem_nodup {β : Type} {m : List (String × β)}
    {k : String} {v : β} (hnd : (mapKeys m).Nodup) (h : (k, v) ∈ m) :
    mapGet m k = some v := by
  induction m with
  | nil => simp at h
  | cons kv rest ih =>
    obtain ⟨a, b⟩ := kv
    rcases List.mem_cons.mp h with h1 | h2
    · obtain ⟨h1a, h1b⟩ := Prod.mk.injEq .. ▸ h1
      injection h1 with ha hb
      subst ha
      subst hb
      simp [mapGet]
    · have ha : a ≠ k := by
        intro hak
        subst hak
        have : a ∈ mapKeys rest := by
          simp [mapKeys]
          exact ⟨v, h2⟩
        simp [mapKeys] at hnd
        exact hnd.1 v h2
      have hnd2 : (mapKeys rest).Nodup := by
        simp [mapKeys] at hnd ⊢
        exact hnd.2
      simp [mapGet, ha, ih hnd2 h2]

theorem mem_of_mapGet_eq_some {β : Type} {m : List (String × β)}
    {k : String} {v : β} (h : mapGet m k = some v) : (k, v) ∈ m := by
  induction m with
  | nil => simp [mapGet] at h
  | cons kv rest ih =>
    obtain ⟨a, b⟩ := kv
    by_cases hak : a = k
    · subst hak
      simp [mapGet] at h
      subst h
      exact List.mem_cons_self _ _
    · simp [mapGet, hak] at h
      exact List.mem_cons_of_mem _ (ih h)

/-- Any view of the tracker that ignores the three lookup maps is
unchanged by the walk. -/
theorem initWalk_proj {α : Type} (f : TrackerState → α)
    (hf : ∀ st st' : TrackerState, st.results = st'.results →
      st.waiters = st'.waiters → st.reverseDeps = st'.reverseDeps →
      st.processes = st'.processes → st.killedPaths = st'.killedPaths →
      f st = f st') :
    ∀ (ns : List VerificationNode) (st : TrackerState) (pp : String),
      f (initWalk st pp ns) = f st := by
  suffices h : ∀ (n : Nat) (ns : List VerificationNode), sizeOf ns ≤ n →
      ∀ (st : TrackerState) (pp : String), f (initWalk st pp ns) = f st by
    intro ns st pp
    exact h (sizeOf ns) ns le_rfl st pp
  intro n
  induction n with
  | zero =>
    intro ns h st pp
    cases ns with
    | nil => simp [initWalk]
    | cons a b => simp at h
  | succ n ih =>
    intro ns hle st pp
    cases ns with
    | nil => simp [initWalk]
    | cons node rest =>
      have hsz : sizeOf (node :: rest) = 1 + sizeOf node + sizeOf rest := by
        simp
      have h1 : sizeOf node.children ≤ n := by
        have h2 := VerificationNode.sizeOf_children_lt node
        omega
      have h4 : sizeOf rest ≤ n := by omega
      simp only [initWalk]
      rw [ih rest h4, ih node.children h1]
      split <;> (apply hf <;> rfl)

/-- The walk does not touch the recorded results. -/
theorem initWalk_results (ns : List VerificationNode) (st : TrackerState)
    (pp : String) : (initWalk st pp ns).results = st.results :=
  initWalk_proj (fun s => s.results) (fun _ _ h _ _ _ _ => h) ns st pp

/-- The walk does not touch the waiters. -/
theorem initWalk_waiters (ns : List VerificationNode) (st : TrackerState)
    (pp : String) : (initWalk st pp ns).waiters = st.waiters :=
  initWalk_proj (fun s => s.waiters) (fun _ _ _ h _ _ _ => h) ns st pp

/-- The walk does not touch the reverse dependency map. -/
theorem initWalk_reverseDeps (ns : List VerificationNode) (st : TrackerState)
    (pp : String) : (initWalk st pp ns).reverseDeps = st.reverseDeps :=
  initWalk_proj (fun s => s.reverseDeps) (fun _ _ _ _ h _ _ => h) ns st pp

/-- The walk does not touch the process registry. -/
theorem initWalk_processes (ns : List VerificationNode) (st : TrackerState)
    (pp : String) : (initWalk st pp ns).processes = st.processes :=
  initWalk_proj (fun s => s.processes) (fun _ _ _ _ _ h _ => h) ns st pp

/-- The walk does not touch the killed set. -/
theorem initWalk_killedPaths (ns : List VerificationNode) (st : TrackerState)
    (pp : String) : (initWalk st pp ns).killedPaths = st.killedPaths :=
  initWalk_proj (fun s => s.killedPaths) (fun _ _ _ _ _ _ h => h) ns st pp

/-- Well-formedness of the lookup maps, established by the walk: unique
map keys, every key-to-path value is a known path, and every path with a
dependency list is a known path. -/
def WFmaps (st : TrackerState) : Prop :=
  (mapKeys st.pathToKey).Nodup ∧
  (mapKeys st.keyToPath).Nodup ∧
  (mapKeys st.dependencies).Nodup ∧
  (∀ k p, mapGet st.keyToPath k = some p → mapHas st.pathToKey p = true) ∧
  (∀ p, mapHas st.dependencies p = true → mapHas st.pathToKey p = true)

/-- One per-node update step of the walk preserves map well-formedness. -/
theorem WFmaps_step (st : TrackerState) (path key : String)
    (deps : List String) (h : WFmaps st) :
    WFmaps { st with
      pathToKey := mapSet st.pathToKey path key
      keyToPath := mapSet st.keyToPath key path } ∧
    WFmaps { st with
      pathToKey := mapSet st.pathToKey path key
      keyToPath := mapSet st.keyToPath key path
      dependencies := mapSet st.dependencies path deps } := by
  obtain ⟨h1, h2, h3, h4, h5⟩ := h
  have hv : ∀ k p, mapGet (mapSet st.keyToPath key path) k = some p →
      mapHas (mapSet st.pathToKey path key) p = true := by
    intro k p hk
    rw [mapGet_set] at hk
    rw [mapHas_set]
    split at hk
    · injection hk with hk
      subst hk
      simp
    · simp [h4 k p hk]
  have hd : ∀ p, mapHas st.dependencies p = true →
      mapHas (mapSet st.pathToKey path key) p = true := by
    intro p hp
    rw [mapHas_set]
    simp [h5 p hp]
  refine ⟨⟨mapKeys_nodup_set _ _ _ h1, mapKeys_nodup_set _ _ _ h2, h3,
      hv, hd⟩,
    ⟨mapKeys_nodup_set _ _ _ h1, mapKeys_nodup_set _ _ _ h2,
      mapKeys_nodup_set _ _ _ h3, hv, ?_⟩⟩
  intro p hp
  rw [mapHas_set] at hp
  rcases (Bool.or_eq_true _ _).mp hp with hp | hp
  · have hpp : p = path := by simpa using hp
    subst hpp
    rw [mapHas_set]
    simp
  · exact hd p hp

/-- The walk establishes (preserves) well-formedness of the maps. -/
theorem initWalk_WF :
    ∀ (ns : List VerificationNode) (st : TrackerState) (pp : String),
      WFmaps st → WFmaps (initWalk st pp ns) := by
  suffices h : ∀ (n : Nat) (ns : List VerificationNode), sizeOf ns ≤ n →
      ∀ (st : TrackerState) (pp : String), WFmaps st →
        WFmaps (initWalk st pp ns) by
    intro ns st pp hw
    exact h (sizeOf ns) ns le_rfl st pp hw
  intro n
  induction n with
  | zero =>
    intro ns h st pp hw
    cases ns with
    | nil => simpa [initWalk] using hw
    | cons a b => simp at h
  | succ n ih =>
    intro ns hle st pp hw
    cases ns with
    | nil => simpa [initWalk] using hw
    | cons node rest =>
      have hsz : sizeOf (node :: rest) = 1 + sizeOf node + sizeOf rest := by
        simp
      have h1 : sizeOf node.children ≤ n := by
        have h2 := VerificationNode.sizeOf_children_lt node
        omega
      have h4 : sizeOf rest ≤ n := by omega
      simp only [initWalk]
      apply ih rest h4
      apply ih node.children h1
      split
      · exact (WFmaps_step st _ node.key node.reportingDependsOn hw).2
      · exact (WFmaps_step st _ node.key node.reportingDependsOn hw).1

/-! ## Reverse dependency map lemmas -/

theorem resolveDependency_congr (st st' : TrackerState) (d : String)
    (h1 : st.pathToKey = st'.pathToKey) (h2 : st.keyToPath = st'.keyToPath) :
    resolveDependency st d = resolveDependency st' d := by
  unfold resolveDependency
  rw [h1, h2]

theorem addRevForDeps_fields (st : TrackerState) (path : String)
    (ds : List String) :
    (addRevForDeps st path ds).pathToKey = st.pathToKey ∧
    (addRevForDeps st path ds).keyToPath = st.keyToPath ∧
    (addRevForDeps st path ds).dependencies = st.dependencies := by
  induction ds generalizing st with
  | nil => exact ⟨rfl, rfl, rfl⟩
  | cons d rest ih =>
    cases hres : resolveDependency st d with
    | none => simpa [addRevForDeps, hres] using ih st
    | some rd =>
      have := ih { st with reverseDeps := mapSet st.reverseDeps rd (mapGetD st.reverseDeps rd [] ++ [path]) }
      simpa [addRevForDeps, hres] using this

theorem addRevForDeps_mem (st : TrackerState) (path : String)
    (ds : List String) (p q : String) :
    (q ∈ mapGetD (addRevForDeps st path ds).reverseDeps p []) ↔
      (q ∈ mapGetD st.reverseDeps p [] ∨
        (q = path ∧ ∃ d ∈ ds, resolveDependency st d = some p)) := by
  induction ds generalizing st with
  | nil => simp [addRevForDeps]
  | cons d rest ih =>
    cases hres : resolveDependency st d with
    | none =>
      rw [show addRevForDeps st path (d :: rest) = addRevForDeps st path rest
        by simp [addRevForDeps, hres]]
      rw [ih st]
      constructor
      · rintro (h | ⟨hq, d2, hd2, hr2⟩)
        · exact Or.inl h
        · exact Or.inr ⟨hq, d2, List.mem_cons_of_mem _ hd2, hr2⟩
      · rintro (h | ⟨hq, d2, hd2, hr2⟩)
        · exact Or.inl h
        · rcases List.mem_cons.mp hd2 with hd2 | hd2
          · subst hd2
            rw [hres] at hr2
            cases hr2
          · exact Or.inr ⟨hq, d2, hd2, hr2⟩
    | some rd =>
      have hstep : addRevForDeps st path (d :: rest) =
          addRevForDeps { st with reverseDeps := mapSet st.reverseDeps rd (mapGetD st.reverseDeps rd [] ++ [path]) } path rest := by
        simp [addRevForDeps, hres]
      set st2 : TrackerState := { st with reverseDeps := mapSet st.reverseDeps rd (mapGetD st.reverseDeps rd [] ++ [path]) } with hst2
      have hres2 : ∀ d2, resolveDependency st2 d2 = resolveDependency st d2 :=
        fun d2 => resolveDependency_congr st2 st d2 rfl rfl
      rw [hstep, ih st2]
      by_cases hp : p = rd
      · subst hp
        have hget : mapGetD st2.reverseDeps p [] =
            mapGetD st.reverseDeps p [] ++ [path] := by
          rw [hst2]
          show mapGetD (mapSet st.reverseDeps p _) p [] = _
          unfold mapGetD
          rw [mapGet_set_self]
          rfl
        rw [hget]
        simp only [List.mem_append, List.mem_singleton, hres2]
        constructor
        · rintro ((h | h) | ⟨hq, d2, hd2, hr2⟩)
          · exact Or.inl h
          · exact Or.inr ⟨h, d, List.mem_cons_self _ _, hres⟩
          · exact Or.inr ⟨hq, d2, List.mem_cons_of_mem _ hd2, hr2⟩
        · rintro (h | ⟨hq, d2, hd2, hr2⟩)
          · exact Or.inl (Or.inl h)
          · exact Or.inl (Or.inr hq)
      · have hget : mapGetD st2.reverseDeps p [] =
            mapGetD st.reverseDeps p [] := by
          rw [hst2]
          show mapGetD (mapSet st.reverseDeps rd _) p [] = _
          unfold mapGetD
          rw [mapGet_set_other _ _ hp]
        rw [hget]
        simp only [hres2]
        constructor
        · rintro (h | ⟨hq, d2, hd2, hr2⟩)
          · exact Or.inl h
          · exact Or.inr ⟨hq, d2, List.mem_cons_of_mem _ hd2, hr2⟩
        · rintro (h | ⟨hq, d2, hd2, hr2⟩)
          · exact Or.inl h
          · rcases List.mem_cons.mp hd2 with hd2 | hd2
            · subst hd2
              rw [hres] at hr2
              injection hr2 with hr2
              exact absurd hr2.symm hp
            · exact Or.inr ⟨hq, d2, hd2, hr2⟩

theorem buildRevGo_fields (st : TrackerState)
    (entries : List (String × List String)) :
    (buildRevGo st entries).pathToKey = st.pathToKey ∧
    (buildRevGo st entries).keyToPath = st.keyToPath ∧
    (buildRevGo st entries).dependencies = st.dependencies := by
  induction entries generalizing st with
  | nil => exact ⟨rfl, rfl, rfl⟩
  | cons e rest ih =>
    obtain ⟨path, ds⟩ := e
    have h1 := addRevForDeps_fields st path ds
    have h2 := ih (addRevForDeps st path ds)
    exact ⟨h2.1.trans h1.1, h2.2.1.trans h1.2.1, h2.2.2.trans h1.2.2⟩

theorem buildRevGo_mem (entries : List (String × List String))
    (st : TrackerState) (p q : String) :
    (q ∈ mapGetD (buildRevGo st entries).reverseDeps p []) ↔
      (q ∈ mapGetD st.reverseDeps p [] ∨
        ∃ ds, (q, ds) ∈ entries ∧
          ∃ d ∈ ds, resolveDependency st d = some p) := by
  induction entries generalizing st with
  | nil => simp [buildRevGo]
  | cons e rest ih =>
    obtain ⟨path, ds⟩ := e
    have hfld := addRevForDeps_fields st path ds
    have hres : ∀ d2, resolveDependency (addRevForDeps st path ds) d2 =
        resolveDependency st d2 := fun d2 =>
      resolveDependency_congr _ st d2 hfld.1 hfld.2.1
    rw [show buildRevGo st ((path, ds) :: rest) =
      buildRevGo (addRevForDeps st path ds) rest from rfl]
    rw [ih (addRevForDeps st path ds)]
    rw [addRevForDeps_mem]
    constructor
    · rintro ((h | ⟨hq, d2, hd2, hr2⟩) | ⟨ds2, hds2, d2, hd2, hr2⟩)
      · exact Or.inl h
      · exact Or.inr ⟨ds, by rw [hq]; exact List.mem_cons_self _ _, d2, hd2,
          hr2⟩
      · rw [hres d2] at hr2
        exact Or.inr ⟨ds2, List.mem_cons_of_mem _ hds2, d2, hd2, hr2⟩
    · rintro (h | ⟨ds2, hds2, d2, hd2, hr2⟩)
      · exact Or.inl (Or.inl h)
      · rcases List.mem_cons.mp hds2 with hds2 | hds2
        · injection hds2 with hq hds
          subst hds
          exact Or.inl (Or.inr ⟨hq, d2, hd2, hr2⟩)
        · exact Or.inr ⟨ds2, hds2, d2, hd2, by rw [hres d2]; exact hr2⟩

/-- On a successfully initialized tracker, membership in the reverse
dependency list of `p` is exactly the resolved edge relation: `q`
declares some dependency identifier that resolves to `p`. -/
theorem initTracker_reverseDeps_iff (nodes : List VerificationNode)
    (st0 : TrackerState) (h : initTracker nodes = Except.ok st0) :
    ∀ q p, (q ∈ mapGetD st0.reverseDeps p []) ↔ edgeTo st0 q p := by
  have hm : st0 = buildReverseDeps (initWalk emptyTracker "" nodes) := by
    unfold initTracker at h
    simp only [] at h
    split at h
    · cases h
    · injection h with h
      exact h.symm
  set m := initWalk emptyTracker "" nodes with hmdef
  have hWF : WFmaps m := initWalk_WF nodes emptyTracker ""
    ⟨List.nodup_nil, List.nodup_nil, List.nodup_nil,
      by intro k p hk; simp [emptyTracker, mapGet] at hk,
      by intro p hp; simp [emptyTracker, mapHas, mapGet] at hp⟩
  have hrev0 : m.reverseDeps = [] := initWalk_reverseDeps nodes emptyTracker ""
  have hflds := buildRevGo_fields m m.dependencies
  intro q p
  rw [hm]
  unfold buildReverseDeps
  rw [buildRevGo_mem]
  rw [hrev0]
  have hdeps : (buildRevGo m m.dependencies).dependencies = m.dependencies :=
    hflds.2.2
  have hresEq : ∀ d, resolveDependency (buildRevGo m m.dependencies) d =
      resolveDependency m d := fun d =>
    resolveDependency_congr _ m d hflds.1 hflds.2.1
  unfold edgeTo
  rw [hdeps]
  simp only [hresEq]
  constructor
  · rintro (h | ⟨ds, hds, d, hd, hr⟩)
    · simp [mapGetD, mapGet] at h
    · have : mapGet m.dependencies q = some ds :=
        mapGet_eq_some_of_mem_nodup hWF.2.2.1 hds
      exact ⟨d, by simp [mapGetD, this]; exact hd, hr⟩
  · rintro ⟨d, hd, hr⟩
    cases hget : mapGet m.dependencies q with
    | none => simp [mapGetD, hget] at hd
    | some ds =>
      refine Or.inr ⟨ds, mem_of_mapGet_eq_some hget, d, ?_, hr⟩
      simpa [mapGetD, hget] using hd

/-! ## Claim C5: cancellation fan-out on failure -/

/-- The dependency chain for the C5 analysis: `b` depends on `a`, and
`c` depends on `b` (so `c` transitively depends on `a`). -/
def c5Nodes : List VerificationNode :=
  [{ key := "a", children := [] },
   { key := "b", children := [], reportingDependsOn := ["a"] },
   { key := "c", children := [], reportingDependsOn := ["b"] }]

/-- The C5 tracker: chain initialized, with live processes registered
for `b` (pid 11) and `c` (pid 12). -/
def c5State : TrackerState :=
  registerProcess
    (registerProcess (buildReverseDeps (initWalk emptyTracker "" c5Nodes))
      "b" (some 11))
    "c" (some 12)

/-- The failing result of `a`. -/
def c5FailA : TaskResult :=
  { key := "a", path := "a", ok := false, code := 1, durationMs := 1,
    output := "", summaryLine := "a: failed", children := [] }

/-- C5 counterexample: recording the failing result of `a` terminates
only the immediate dependent `b`, even though `c` transitively depends
on `a` and has a live registered process: the only signal sent is the
SIGTERM for pid 11, `b` is marked killed, and `c` is not. -/
theorem c5_counterexample :
    Relation.TransGen (edgeTo c5State) "c" "a" ∧
    mapGet c5State.processes "c" = some (some 12) ∧
    (recordResult c5State c5FailA).2 = [(11, "SIGTERM")] ∧
    wasKilled (recordResult c5State c5FailA).1 "b" = true ∧
    wasKilled (recordResult c5State c5FailA).1 "c" = false := by
  have hedge1 : edgeTo c5State "c" "b" := by
    refine ⟨"b", ?_, ?_⟩
    · simp [c5State, c5Nodes, initWalk, buildReverseDeps, buildRevGo,
        addRevForDeps, registerProcess, resolveDependency, mapGet, mapSet,
        mapHas, mapGetD, emptyTracker]
    · simp [c5State, c5Nodes, initWalk, buildReverseDeps, buildRevGo,
        addRevForDeps, registerProcess, resolveDependency, mapGet, mapSet,
        mapHas, mapGetD, emptyTracker]
  have hedge2 : edgeTo c5State "b" "a" := by
    refine ⟨"a", ?_, ?_⟩
    · simp [c5State, c5Nodes, initWalk, buildReverseDeps, buildRevGo,
        addRevForDeps, registerProcess, resolveDependency, mapGet, mapSet,
        mapHas, mapGetD, emptyTracker]
    · simp [c5State, c5Nodes, initWalk, buildReverseDeps, buildRevGo,
        addRevForDeps, registerProcess, resolveDependency, mapGet, mapSet,
        mapHas, mapGetD, emptyTracker]
  refine ⟨Relation.TransGen.head hedge1 (Relation.TransGen.single hedge2),
    ?_, ?_, ?_, ?_⟩
  · simp [c5State, c5Nodes, initWalk, buildReverseDeps, buildRevGo,
      addRevForDeps, registerProcess, mapGet, mapSet, mapGetD, emptyTracker,
      resolveDependency, mapHas]
  · simp [c5State, c5Nodes, c5FailA, initWalk, buildReverseDeps, buildRevGo,
      addRevForDeps, registerProcess, recordResult, killDependents,
      killDepGo, setAdd, resolveDependency, mapGet, mapSet, mapHas, mapGetD,
      mapDelete, emptyTracker]
  · simp [c5State, c5Nodes, c5FailA, initWalk, buildReverseDeps, buildRevGo,
      addRevForDeps, registerProcess, recordResult, killDependents,
      killDepGo, setAdd, wasKilled, resolveDependency, mapGet, mapSet,
      mapHas, mapGetD, mapDelete, emptyTracker]
  · simp [c5State, c5Nodes, c5FailA, initWalk, buildReverseDeps, buildRevGo,
      addRevForDeps, registerProcess, recordResult, killDependents,
      killDepGo, setAdd, wasKilled, resolveDependency, mapGet, mapSet,
      mapHas, mapGetD, mapDelete, emptyTracker]

/-- C5 amended: recording a failing result issues termination signals
exactly to the immediate dependents of the failed path (the paths in its
reverse-edge list — after initialization, exactly the paths with a
resolved edge to it) that currently have a live registered process; each
such dependent is marked killed, and no other path is newly marked. -/
theorem c5_kill_immediate_dependents (st : TrackerState) (r : TaskResult)
    (hfail : r.ok = false) :
    ((recordResult st r).2 = (mapGetD st.reverseDeps r.path []).filterMap
      (fun q => match mapGet st.processes q with
        | some (some pid) => some (pid, "SIGTERM")
        | _ => none)) ∧
    (∀ q, wasKilled (recordResult st r).1 q = true ↔
      (wasKilled st q = true ∨ (q ∈ mapGetD st.reverseDeps r.path [] ∧
        ∃ pid, mapGet st.processes q = some (some pid)))) ∧
    (∀ nodes st0, initTracker nodes = Except.ok st0 →
      ∀ q p, (q ∈ mapGetD st0.reverseDeps p []) ↔ edgeTo st0 q p) := by
  have hrec1 : (recordResult st r).2 =
      (killDepGo { st with results := mapSet st.results r.path r }
        (mapGetD st.reverseDeps r.path [])).2 := by
    unfold recordResult killDependents
    simp only [hfail, Bool.not_false, if_true]
  have hrecKilled : (recordResult st r).1.killedPaths =
      (killDepGo { st with results := mapSet st.results r.path r }
        (mapGetD st.reverseDeps r.path [])).1.killedPaths := by
    unfold recordResult killDependents
    simp only [hfail, Bool.not_false, if_true]
    all_goals first
    | rfl
    | split <;> rfl
  refine ⟨?_, ?_, ?_⟩
  · rw [hrec1, killDepGo_signals]
  · intro q
    unfold wasKilled
    rw [hrecKilled]
    have hmem := killDepGo_killed
      { st with results := mapSet st.results r.path r }
      (mapGetD st.reverseDeps r.path []) q
    rw [List.elem_iff, List.elem_iff]
    constructor
    · intro hq
      rcases hmem.mp hq with h | h
      · exact Or.inl h
      · exact Or.inr h
    · intro hq
      apply hmem.mpr
      rcases hq with h | h
      · exact Or.inl h
      · exact Or.inr h
  · exact fun nodes st0 h => initTracker_reverseDeps_iff nodes st0 h

/-- C5 witness: the amended statement evaluated on the concrete C5
chain: the signals of recording the failure of `a` are exactly the
SIGTERM for the process of the immediate dependent `b`, and `b` is
marked killed. -/
theorem c5_witness :
    (recordResult c5State c5FailA).2 =
      (mapGetD c5State.reverseDeps c5FailA.path []).filterMap
        (fun q => match mapGet c5State.processes q with
          | some (some pid) => some (pid, "SIGTERM")
          | _ => none) ∧
    wasKilled (recordResult c5State c5FailA).1 "b" = true := by
  have h := c5_kill_immediate_dependents c5State c5FailA rfl
  refine ⟨h.1, (h.2.1 "b").mpr (Or.inr ⟨?_, 11, ?_⟩)⟩
  · simp [c5State, c5Nodes, c5FailA, initWalk, buildReverseDeps, buildRevGo,
      addRevForDeps, registerProcess, resolveDependency, mapGet, mapSet,
      mapHas, mapGetD, emptyTracker]
  · simp [c5State, c5Nodes, c5FailA, initWalk, buildReverseDeps, buildRevGo,
      addRevForDeps, registerProcess, resolveDependency, mapGet, mapSet,
      mapHas, mapGetD, emptyTracker]

/-! ## Claim C7: dependency identifier resolution precedence -/

/-- The (path, key) pairs recorded by the walk, in walk order. -/
def walkEntries (parentPath : String) :
    List VerificationNode → List (String × String)
  | [] => []
  | node :: rest =>
    let path := if parentPath ≠ "" then parentPath ++ ":" ++ node.key
      else node.key
    (path, node.key) ::
      (walkEntries path node.children ++ walkEntries parentPath rest)
termination_by nodes => sizeOf nodes
decreasing_by
  all_goals simp_wf
  all_goals exact VerificationNode.sizeOf_children_lt_sum node rest

/-- The path of the last walk entry whose key is `k` (later writes to
the key map shadow earlier ones). -/
def lastKeyMatch (es : List (String × String)) (k : String) : Option String :=
  match es with
  | [] => none
  | e :: rest =>
    match lastKeyMatch rest k with
    | some p => some p
    | none => if e.2 == k then some e.1 else none

theorem lastKeyMatch_append (a b : List (String × String)) (k : String) :
    lastKeyMatch (a ++ b) k =
      (match lastKeyMatch b k with
       | some p => some p
       | none => lastKeyMatch a k) := by
  induction a with
  | nil =>
    cases h : lastKeyMatch b k <;> simp [lastKeyMatch, h]
  | cons e rest ih =>
    show (match lastKeyMatch (rest ++ b) k with
      | some p => some p
      | none => if e.2 == k then some e.1 else none) = _
    rw [ih]
    cases hb : lastKeyMatch b k with
    | some p => simp [lastKeyMatch]
    | none =>
      cases ha : lastKeyMatch rest k <;> simp [lastKeyMatch, ha]

/-- The key map after the walk: a key resolves to the path of the last
node with that key in walk order, falling back to the pre-walk map. -/
theorem initWalk_keyToPath_get :
    ∀ (ns : List VerificationNode) (st : TrackerState) (pp k : String),
      mapGet (initWalk st pp ns).keyToPath k =
        (match lastKeyMatch (walkEntries pp ns) k with
         | some p => some p
         | none => mapGet st.keyToPath k) := by
  suffices h : ∀ (n : Nat) (ns : List VerificationNode), sizeOf ns ≤ n →
      ∀ (st : TrackerState) (pp k : String),
        mapGet (initWalk st pp ns).keyToPath k =
          (match lastKeyMatch (walkEntries pp ns) k with
           | some p => some p
           | none => mapGet st.keyToPath k) by
    intro ns st pp k
    exact h (sizeOf ns) ns le_rfl st pp k
  intro n
  induction n with
  | zero =>
    intro ns h st pp k
    cases ns with
    | nil => simp [initWalk, walkEntries, lastKeyMatch]
    | cons a b => simp at h
  | succ n ih =>
    intro ns hle st pp k
    cases ns with
    | nil => simp [initWalk, walkEntries, lastKeyMatch]
    | cons node rest =>
      have hsz : sizeOf (node :: rest) = 1 + sizeOf node + sizeOf rest := by
        simp
      have h1 : sizeOf node.children ≤ n := by
        have h2 := VerificationNode.sizeOf_children_lt node
        omega
      have h4 : sizeOf rest ≤ n := by omega
      simp only [initWalk, walkEntries]
      rw [ih rest h4, ih node.children h1]
      conv_rhs => rw [show ∀ (e : String × String)
        (tail : List (String × String)),
          lastKeyMatch (e :: tail) k =
            (match lastKeyMatch tail k with
             | some p => some p
             | none => if e.2 == k then some e.1 else none)
        from fun e tail => rfl]
      rw [lastKeyMatch_append]
      cases hrE : lastKeyMatch (walkEntries pp rest) k with
      | some p => simp [lastKeyMatch, hrE]
      | none =>
        simp only [hrE]
        cases hcE : lastKeyMatch (walkEntries
            (if pp ≠ "" then pp ++ ":" ++ node.key else node.key)
            node.children) k with
        | some p => simp [lastKeyMatch, hrE, hcE]
        | none =>
          simp only [hcE]
          split
          all_goals simp only [mapGet_set]
          all_goals by_cases hk : k = node.key
          all_goals try (subst hk; simp)
          all_goals
            have hk' : ¬(node.key == k) = true := by
              simp only [beq_iff_eq]
              exact fun h => hk h.symm
          all_goals simp [hk, hk']

/-- The C7 tree: two distinct nodes share the key `x` (so `x` is not a
unique key), under the group nodes `g1` and `g2`. -/
def c7Nodes : List VerificationNode :=
  [{ key := "g1", children := [{ key := "x", children := [] }] },
   { key := "g2", children := [{ key := "x", children := [] }] }]

/-- C7 counterexample: the identifier `x` matches no path and is the key
of two distinct nodes (`g1:x` and `g2:x`), so by the claim it should be
unresolved and dropped; instead `resolveDependency` resolves it — to the
path of the last node with that key in walk order, `g2:x`. -/
theorem c7_counterexample :
    mapHas (initWalk emptyTracker "" c7Nodes).pathToKey "x" = false ∧
    mapGet (initWalk emptyTracker "" c7Nodes).pathToKey "g1:x" = some "x" ∧
    mapGet (initWalk emptyTracker "" c7Nodes).pathToKey "g2:x" = some "x" ∧
    resolveDependency (initWalk emptyTracker "" c7Nodes) "x" =
      some "g2:x" := by
  refine ⟨?_, ?_, ?_, ?_⟩ <;>
    simp [c7Nodes, initWalk, resolveDependency, mapGet, mapSet, mapHas,
      emptyTracker]

/-- C7 amended: resolution precedence on an initialized tracker is (1)
an identifier equal to an existing path resolves to that path, even when
the same string is also a key; (2) otherwise an identifier matching at
least one node key resolves to the path of the last node with that key
in walk order (uniqueness of the key is not required); (3) an identifier
matching no path and no key is unresolved. -/
theorem c7_resolution_precedence (nodes : List VerificationNode)
    (dep : String) :
    (mapHas (initWalk emptyTracker "" nodes).pathToKey dep = true →
      resolveDependency (initWalk emptyTracker "" nodes) dep = some dep) ∧
    (mapHas (initWalk emptyTracker "" nodes).pathToKey dep = false →
      resolveDependency (initWalk emptyTracker "" nodes) dep =
        lastKeyMatch (walkEntries "" nodes) dep) ∧
    (mapHas (initWalk emptyTracker "" nodes).pathToKey dep = false →
      lastKeyMatch (walkEntries "" nodes) dep = none →
      resolveDependency (initWalk emptyTracker "" nodes) dep = none) := by
  have hget := initWalk_keyToPath_get nodes emptyTracker "" dep
  have hempty : mapGet (emptyTracker : TrackerState).keyToPath dep = none :=
    rfl
  rw [hempty] at hget
  refine ⟨?_, ?_, ?_⟩
  · intro hp
    unfold resolveDependency
    rw [hp]
    rfl
  · intro hp
    unfold resolveDependency
    rw [hp]
    simp only [Bool.false_eq_true, if_false]
    cases hlk : lastKeyMatch (walkEntries "" nodes) dep with
    | some p =>
      rw [hlk] at hget
      simp [mapHas, hget]
    | none =>
      rw [hlk] at hget
      simp [mapHas, hget]
  · intro hp hlk
    unfold resolveDependency
    rw [hp]
    rw [hlk] at hget
    simp [mapHas, hget]

/-- C7 witness: on the concrete duplicate-key tree, the path `g1:x`
resolves to itself, the duplicated key `x` resolves to the last walk
entry `g2:x`, and an identifier matching nothing is unresolved. -/
theorem c7_witness :
    resolveDependency (initWalk emptyTracker "" c7Nodes) "g1:x" =
      some "g1:x" ∧
    resolveDependency (initWalk emptyTracker "" c7Nodes) "x" =
      lastKeyMatch (walkEntries "" c7Nodes) "x" ∧
    resolveDependency (initWalk emptyTracker "" c7Nodes) "zzz" = none := by
  refine ⟨(c7_resolution_precedence c7Nodes "g1:x").1 ?_,
    (c7_resolution_precedence c7Nodes "x").2.1 ?_,
    (c7_resolution_precedence c7Nodes "zzz").2.2 ?_ ?_⟩
  · simp [c7Nodes, initWalk, mapGet, mapSet, mapHas, emptyTracker]
  · simp [c7Nodes, initWalk, mapGet, mapSet, mapHas, emptyTracker]
  · simp [c7Nodes, initWalk, mapGet, mapSet, mapHas, emptyTracker]
  · simp [c7Nodes, walkEntries, lastKeyMatch, emptyTracker]

/-! ## Claim C3: cycle validation — groundwork -/

theorem colorOf_set (s : DfsState) (p : String) (c : Nat) (q : String) :
    colorOf { s with colors := mapSet s.colors p c } q =
      if q = p then c else colorOf s q := by
  unfold colorOf mapGetD
  show (mapGet (mapSet s.colors p c) q).getD 0 = _
  rw [mapGet_set]
  split <;> rfl

theorem dfsGo_zero (m : TrackerState) (s : DfsState) (p : String) :
    dfsGo m 0 s p = (s, none) := by
  rw [dfsGo]

theorem dfsGo_succ (m : TrackerState) (fuel : Nat) (s : DfsState)
    (p : String) :
    dfsGo m (fuel + 1) s p =
      dfsLoop m fuel { s with colors := mapSet s.colors p 1 } p
        (mapGetD m.dependencies p []) := by
  rw [dfsGo]

theorem dfsLoop_nil (m : TrackerState) (fuel : Nat) (s : DfsState)
    (p : String) :
    dfsLoop m fuel s p [] =
      ({ s with colors := mapSet s.colors p 2 }, none) := by
  rw [dfsLoop]

theorem dfsLoop_cons (m : TrackerState) (fuel : Nat) (s : DfsState)
    (p d : String) (ds : List String) :
    dfsLoop m fuel s p (d :: ds) =
      (match resolveDependency m d with
       | none => dfsLoop m fuel s p ds
       | some depPath =>
         if colorOf s depPath = 1 then
           (s, some (reconstructCycle s.parent (s.colors.length + 1) p
             depPath))
         else if colorOf s depPath = 0 then
           match dfsGo m fuel
               { s with parent := mapSet s.parent depPath p } depPath with
           | (s3, some cyc) => (s3, some cyc)
           | (s3, none) => dfsLoop m fuel s3 p ds
         else dfsLoop m fuel s p ds) := by
  rw [dfsLoop]

/-- Color bookkeeping of one completed `dfs` call: no gray mark is
created or destroyed, black marks persist, no white mark appears, and
the visited node ends black (bundled for the `dfs` entry and its
dependency loop). -/
def GoPost (s s' : DfsState) : Prop :=
  (∀ v, colorOf s' v = 1 ↔ colorOf s v = 1) ∧
  (∀ v, colorOf s v = 2 → colorOf s' v = 2) ∧
  (∀ v, colorOf s' v = 0 → colorOf s v = 0)

/-- Color bookkeeping of the dependency loop (the visited node stays on
the stack, then leaves it black). -/
def LoopPost (path : String) (s s' : DfsState) : Prop :=
  (∀ v, v ≠ path → (colorOf s' v = 1 ↔ colorOf s v = 1)) ∧
  colorOf s' path = 2 ∧
  (∀ v, colorOf s v = 2 → colorOf s' v = 2) ∧
  (∀ v, colorOf s' v = 0 → colorOf s v = 0)

theorem GoPost_refl (s : DfsState) : GoPost s s :=
  ⟨fun _ => Iff.rfl, fun _ h => h, fun _ h => h⟩

theorem GoPost_trans {s1 s2 s3 : DfsState} (h1 : GoPost s1 s2)
    (h2 : GoPost s2 s3) : GoPost s1 s3 :=
  ⟨fun v => (h2.1 v).trans (h1.1 v), fun v h => h2.2.1 v (h1.2.1 v h),
    fun v h => h1.2.2 v (h2.2.2 v h)⟩

/-- The gray-preservation bundle, proved for the entry and the loop
simultaneously by induction on the fuel. -/
theorem dfs_grayPost (m : TrackerState) : ∀ fuel : Nat,
    (∀ s path s', colorOf s path = 0 → dfsGo m fuel s path = (s', none) →
      GoPost s s') ∧
    (∀ ds s path s', colorOf s path = 1 →
      dfsLoop m fuel s path ds = (s', none) → LoopPost path s s') := by
  have hnil : ∀ (fuel : Nat) s (path : String) s',
      colorOf s path = 1 → dfsLoop m fuel s path [] = (s', none) →
        LoopPost path s s' := by
    intro fuel s path s' hg h
    rw [dfsLoop_nil] at h
    injection h with h1 h2
    subst h1
    refine ⟨?_, ?_, ?_, ?_⟩
    · intro v hv
      rw [colorOf_set, if_neg hv]
    · rw [colorOf_set, if_pos rfl]
    · intro v hv
      rw [colorOf_set]
      split
      all_goals first
      | rfl
      | exact hv
    · intro v hv
      rw [colorOf_set] at hv
      split at hv
      all_goals first
      | cases hv
      | exact hv
  intro fuel
  induction fuel with
  | zero =>
    constructor
    · intro s path s' hw h
      rw [dfsGo_zero] at h
      cases h
      exact GoPost_refl s
    · intro ds
      induction ds with
      | nil => exact hnil 0
      | cons d ds ih =>
        intro s path s' hg h
        rw [dfsLoop_cons] at h
        cases hres : resolveDependency m d with
        | none =>
          simp only [hres] at h
          exact ih s path s' hg h
        | some depPath =>
          simp only [hres] at h
          by_cases hc1 : colorOf s depPath = 1
          · rw [if_pos hc1] at h
            cases h
          · rw [if_neg hc1] at h
            by_cases hc0 : colorOf s depPath = 0
            · rw [if_pos hc0] at h
              simp only [dfsGo_zero] at h
              exact ih { s with parent := mapSet s.parent depPath path }
                path s' hg h
            · rw [if_neg hc0] at h
              exact ih s path s' hg h
  | succ fuel ihp =>
    have hgo : ∀ s path s', colorOf s path = 0 →
        dfsGo m (fuel + 1) s path = (s', none) → GoPost s s' := by
      intro s path s' hw h
      rw [dfsGo_succ] at h
      have hg1 : colorOf { s with colors := mapSet s.colors path 1 } path
          = 1 := by
        rw [colorOf_set, if_pos rfl]
      have hloop := ihp.2 _ _ path s' hg1 h
      obtain ⟨l1, l2, l3, l4⟩ := hloop
      refine ⟨?_, ?_, ?_⟩
      · intro v
        by_cases hv : v = path
        · subst hv
          rw [l2, hw]
          simp
        · rw [l1 v hv, colorOf_set, if_neg hv]
      · intro v hv
        by_cases hvp : v = path
        · subst hvp
          rw [hw] at hv
          cases hv
        · apply l3
          rw [colorOf_set, if_neg hvp]
          exact hv
      · intro v hv
        by_cases hvp : v = path
        · subst hvp
          rw [l2] at hv
          cases hv
        · have := l4 v hv
          rw [colorOf_set, if_neg hvp] at this
          exact this
    refine ⟨hgo, ?_⟩
    intro ds
    induction ds with
    | nil => exact hnil (fuel + 1)
    | cons d ds ih =>
      intro s path s' hg h
      rw [dfsLoop_cons] at h
      cases hres : resolveDependency m d with
      | none =>
        simp only [hres] at h
        exact ih s path s' hg h
      | some depPath =>
        simp only [hres] at h
        by_cases hc1 : colorOf s depPath = 1
        · rw [if_pos hc1] at h
          cases h
        · rw [if_neg hc1] at h
          by_cases hc0 : colorOf s depPath = 0
          · rw [if_pos hc0] at h
            cases hrec : dfsGo m (fuel + 1)
                { s with parent := mapSet s.parent depPath path } depPath with
            | mk s3 r3 =>
              cases r3 with
              | some cyc =>
                simp only [hrec] at h
                simp at h
              | none =>
                simp only [hrec] at h
                have hw2 : colorOf { s with
                    parent := mapSet s.parent depPath path } depPath = 0 :=
                  hc0
                have hgo3 := hgo _ depPath s3 hw2 hrec
                have hg3 : colorOf s3 path = 1 := by
                  rw [hgo3.1 path]
                  exact hg
                have hloop3 := ih s3 path s' hg3 h
                obtain ⟨g1, g2, g3⟩ := hgo3
                obtain ⟨l1, l2, l3, l4⟩ := hloop3
                refine ⟨?_, l2, ?_, ?_⟩
                · intro v hv
                  rw [l1 v hv, g1 v]
                  exact Iff.rfl
                · intro v hv
                  exact l3 v (g2 v hv)
                · intro v hv
                  exact g3 v (l4 v hv)
          · rw [if_neg hc0] at h
            exact ih s path s' hg h

/-- Soundness of the DFS: whenever a call reports a cycle string, the
resolved edge relation really has a cycle.  The gray set is maintained
as the set of nodes with a path to the node currently being visited. -/
theorem dfs_sound (m : TrackerState) : ∀ fuel : Nat,
    (∀ s path s' c,
      (∀ g, colorOf s g = 1 → Relation.ReflTransGen (edgeTo m) g path) →
      dfsGo m fuel s path = (s', some c) →
      ∃ v, Relation.TransGen (edgeTo m) v v) ∧
    (∀ ds s path s' c, (∀ d ∈ ds, d ∈ mapGetD m.dependencies path []) →
      (∀ g, colorOf s g = 1 → Relation.ReflTransGen (edgeTo m) g path) →
      dfsLoop m fuel s path ds = (s', some c) →
      ∃ v, Relation.TransGen (edgeTo m) v v) := by
  intro fuel
  induction fuel with
  | zero =>
    have hgo : ∀ s path s' c,
        (∀ g, colorOf s g = 1 → Relation.ReflTransGen (edgeTo m) g path) →
        dfsGo m 0 s path = (s', some c) →
        ∃ v, Relation.TransGen (edgeTo m) v v := by
      intro s path s' c _ h
      rw [dfsGo_zero] at h
      cases h
    refine ⟨hgo, ?_⟩
    intro ds
    induction ds with
    | nil =>
      intro s path s' c _ _ h
      rw [dfsLoop_nil] at h
      cases h
    | cons d ds ih =>
      intro s path s' c hsub hg h
      rw [dfsLoop_cons] at h
      cases hres : resolveDependency m d with
      | none =>
        simp only [hres] at h
        exact ih s path s' c (fun x hx => hsub x (List.mem_cons_of_mem _ hx))
          hg h
      | some depPath =>
        simp only [hres] at h
        by_cases hc1 : colorOf s depPath = 1
        · have hedge : edgeTo m path depPath :=
            ⟨d, hsub d (List.mem_cons_self _ _), hres⟩
          exact ⟨depPath, Relation.TransGen.tail' (hg depPath hc1) hedge⟩
        · rw [if_neg hc1] at h
          by_cases hc0 : colorOf s depPath = 0
          · rw [if_pos hc0] at h
            simp only [dfsGo_zero] at h
            exact ih { s with parent := mapSet s.parent depPath path } path
              s' c (fun x hx => hsub x (List.mem_cons_of_mem _ hx)) hg h
          · rw [if_neg hc0] at h
            exact ih s path s' c
              (fun x hx => hsub x (List.mem_cons_of_mem _ hx)) hg h
  | succ fuel ihp =>
    have hgo : ∀ s path s' c,
        (∀ g, colorOf s g = 1 → Relation.ReflTransGen (edgeTo m) g path) →
        dfsGo m (fuel + 1) s path = (s', some c) →
        ∃ v, Relation.TransGen (edgeTo m) v v := by
      intro s path s' c hg h
      rw [dfsGo_succ] at h
      refine ihp.2 _ _ path s' c (fun x hx => hx) ?_ h
      intro g hg1
      rw [colorOf_set] at hg1
      split at hg1
      · rename_i hgp
        subst hgp
        exact Relation.ReflTransGen.refl
      · exact hg g hg1
    refine ⟨hgo, ?_⟩
    intro ds
    induction ds with
    | nil =>
      intro s path s' c _ _ h
      rw [dfsLoop_nil] at h
      cases h
    | cons d ds ih =>
      intro s path s' c hsub hg h
      rw [dfsLoop_cons] at h
      cases hres : resolveDependency m d with
      | none =>
        simp only [hres] at h
        exact ih s path s' c (fun x hx => hsub x (List.mem_cons_of_mem _ hx))
          hg h
      | some depPath =>
        simp only [hres] at h
        have hedge : edgeTo m path depPath :=
          ⟨d, hsub d (List.mem_cons_self _ _), hres⟩
        by_cases hc1 : colorOf s depPath = 1
        · exact ⟨depPath, Relation.TransGen.tail' (hg depPath hc1) hedge⟩
        · rw [if_neg hc1] at h
          by_cases hc0 : colorOf s depPath = 0
          · rw [if_pos hc0] at h
            cases hrec : dfsGo m (fuel + 1)
                { s with parent := mapSet s.parent depPath path } depPath with
            | mk s3 r3 =>
              cases r3 with
              | some cyc =>
                refine hgo _ depPath s3 cyc ?_ hrec
                intro g hg1
                exact Relation.ReflTransGen.tail (hg g hg1) hedge
              | none =>
                simp only [hrec] at h
                have hpost := (dfs_grayPost m (fuel + 1)).1
                  { s with parent := mapSet s.parent depPath path }
                  depPath s3 hc0 hrec
                refine ih s3 path s' c
                  (fun x hx => hsub x (List.mem_cons_of_mem _ hx)) ?_ h
                intro g hg1
                exact hg g ((hpost.1 g).mp hg1)
          · rw [if_neg hc0] at h
            exact ih s path s' c
              (fun x hx => hsub x (List.mem_cons_of_mem _ hx)) hg h

/-! ### Completeness of the cycle detection -/

/-- Colors used by the DFS are at most BLACK. -/
def Bounded (s : DfsState) : Prop := ∀ v, colorOf s v ≤ 2

/-- Every resolved dependency of a black node is black. -/
def BlackClosed (m : TrackerState) (s : DfsState) : Prop :=
  ∀ u, colorOf s u = 2 → ∀ v, edgeTo m u v → colorOf s v = 2

/-- No black node lies on a cycle of the resolved edge relation. -/
def BlackAcyclic (m : TrackerState) (s : DfsState) : Prop :=
  ∀ v, colorOf s v = 2 → ¬Relation.TransGen (edgeTo m) v v

/-- The DFS invariant. -/
def Inv (m : TrackerState) (s : DfsState) : Prop :=
  Bounded s ∧ BlackClosed m s ∧ BlackAcyclic m s

/-- The number of white nodes among the initialized paths. -/
def whiteCount (m : TrackerState) (s : DfsState) : Nat :=
  (mapKeys m.pathToKey).countP (fun p => colorOf s p == 0)

theorem blackReach (m : TrackerState) (s : DfsState)
    (hc : BlackClosed m s) {w x : String} (hw : colorOf s w = 2)
    (hr : Relation.ReflTransGen (edgeTo m) w x) : colorOf s x = 2 := by
  induction hr with
  | refl => exact hw
  | tail hab hbc ih => exact hc _ ih _ hbc

theorem resolve_in_paths (m : TrackerState) (hWF : WFmaps m) (d q : String)
    (h : resolveDependency m d = some q) :
    mapHas m.pathToKey q = true := by
  unfold resolveDependency at h
  split at h
  · injection h with h
    subst h
    assumption
  · split at h
    · exact hWF.2.2.2.1 d q h
    · cases h

theorem whiteCount_mono (m : TrackerState) (s s' : DfsState)
    (h : ∀ v, colorOf s' v = 0 → colorOf s v = 0) :
    whiteCount m s' ≤ whiteCount m s := by
  unfold whiteCount
  apply List.countP_mono_left
  intro a _ ha
  have := h a (by simpa using ha)
  simpa using this

theorem countP_grayed (s : DfsState) (path : String) :
    ∀ l : List String, l.Nodup → path ∈ l → colorOf s path = 0 →
      l.countP (fun p =>
        colorOf { s with colors := mapSet s.colors path 1 } p == 0) + 1 =
        l.countP (fun p => colorOf s p == 0) := by
  intro l
  induction l with
  | nil =>
    intro _ h
    simp at h
  | cons a rest ih =>
    intro hnd hmem hw
    rw [List.countP_cons, List.countP_cons]
    by_cases hap : a = path
    · subst hap
      have hnotin : a ∉ rest := (List.nodup_cons.mp hnd).1
      have hrest_eq : rest.countP (fun p =>
          colorOf { s with colors := mapSet s.colors a 1 } p == 0) =
          rest.countP (fun p => colorOf s p == 0) := by
        apply List.countP_congr
        intro y hy
        have hya : y ≠ a := fun hya => hnotin (hya ▸ hy)
        rw [colorOf_set, if_neg hya]
      rw [hrest_eq]
      have hnewa : (colorOf { s with colors := mapSet s.colors a 1 } a
          == 0) = false := by
        rw [colorOf_set, if_pos rfl]
        rfl
      have holda : (colorOf s a == 0) = true := by
        rw [hw]
        rfl
      rw [hnewa, holda]
      simp
    · have hmem' : path ∈ rest := by
        rcases List.mem_cons.mp hmem with h | h
        · exact absurd h.symm hap
        · exact h
      have heq : (colorOf { s with colors := mapSet s.colors path 1 } a
          == 0) = (colorOf s a == 0) := by
        rw [colorOf_set, if_neg hap]
      rw [heq]
      have := ih (List.nodup_cons.mp hnd).2 hmem' hw
      omega

theorem whiteCount_gray (m : TrackerState) (s : DfsState) (path : String)
    (hmem : mapHas m.pathToKey path = true)
    (hnd : (mapKeys m.pathToKey).Nodup) (hw : colorOf s path = 0) :
    whiteCount m { s with colors := mapSet s.colors path 1 } + 1 =
      whiteCount m s := by
  unfold whiteCount
  exact countP_grayed s path (mapKeys m.pathToKey) hnd
    (mem_mapKeys_of_get_isSome _ _ (by simpa [mapHas] using hmem)) hw

theorem whiteCount_le_length (m : TrackerState) (s : DfsState) :
    whiteCount m s ≤ (mapKeys m.pathToKey).length :=
  List.countP_le_length _

theorem Inv_gray (m : TrackerState) (s : DfsState) (path : String)
    (hw : colorOf s path = 0) (h : Inv m s) :
    Inv m { s with colors := mapSet s.colors path 1 } := by
  obtain ⟨hb, hc, ha⟩ := h
  have hcol : ∀ v, colorOf { s with colors := mapSet s.colors path 1 } v = 2
      ↔ colorOf s v = 2 := by
    intro v
    rw [colorOf_set]
    split
    · rename_i hvp
      subst hvp
      rw [hw]
      simp
    · exact Iff.rfl
  refine ⟨?_, ?_, ?_⟩
  · intro v
    rw [colorOf_set]
    split
    · omega
    · exact hb v
  · intro u hu v huv
    rw [hcol] at hu ⊢
    exact hc u hu v huv
  · intro v hv
    rw [hcol] at hv
    exact ha v hv

theorem Inv_blacken (m : TrackerState) (s : DfsState) (path : String)
    (h : Inv m s) (hg : colorOf s path = 1)
    (htargets : ∀ v, edgeTo m path v → colorOf s v = 2) :
    Inv m { s with colors := mapSet s.colors path 2 } := by
  obtain ⟨hb, hc, ha⟩ := h
  have hcol : ∀ v, colorOf { s with colors := mapSet s.colors path 2 } v = 2
      ↔ (colorOf s v = 2 ∨ v = path) := by
    intro v
    rw [colorOf_set]
    split
    · rename_i hvp
      simp [hvp]
    · rename_i hvp
      simp [hvp]
  refine ⟨?_, ?_, ?_⟩
  · intro v
    rw [colorOf_set]
    split
    · omega
    · exact hb v
  · intro u hu v huv
    rw [hcol] at hu ⊢
    rcases hu with hu | hu
    · exact Or.inl (hc u hu v huv)
    · subst hu
      exact Or.inl (htargets v huv)
  · intro v hv hcyc
    rw [hcol] at hv
    rcases hv with hv | hv
    · exact ha v hv hcyc
    · subst hv
      obtain ⟨w, hvw, hwv⟩ := (Relation.TransGen.head'_iff).mp hcyc
      have hwblack : colorOf s w = 2 := htargets w hvw
      have hvblack : colorOf s v = 2 := blackReach m s hc hwblack hwv
      rw [hg] at hvblack
      cases hvblack

/-- Completeness machinery: a completed `dfs` call preserves the
invariant and leaves the visited node (and all nodes its loop resolved)
black. -/
theorem dfs_complete (m : TrackerState) (hWF : WFmaps m) : ∀ fuel : Nat,
    (∀ s path s', mapHas m.pathToKey path = true → Inv m s →
      colorOf s path = 0 → whiteCount m s < fuel →
      dfsGo m fuel s path = (s', none) →
      Inv m s' ∧ colorOf s' path = 2) ∧
    (∀ ds s path s', Inv m s → colorOf s path = 1 → whiteCount m s < fuel →
      (∀ d ∈ ds, d ∈ mapGetD m.dependencies path []) →
      (∀ d ∈ mapGetD m.dependencies path [], d ∈ ds ∨
        (∀ q, resolveDependency m d = some q → colorOf s q = 2)) →
      dfsLoop m fuel s path ds = (s', none) →
      Inv m s' ∧ colorOf s' path = 2) := by
  intro fuel
  induction fuel with
  | zero =>
    constructor
    · intro s path s' _ _ _ hfuel _
      omega
    · intro ds s path s' _ _ hfuel _ _ _
      omega
  | succ fuel ihp =>
    have hgo : ∀ s path s', mapHas m.pathToKey path = true → Inv m s →
        colorOf s path = 0 → whiteCount m s < fuel + 1 →
        dfsGo m (fuel + 1) s path = (s', none) →
        Inv m s' ∧ colorOf s' path = 2 := by
      intro s path s' hmem hinv hw hfuel h
      rw [dfsGo_succ] at h
      have hinv1 : Inv m { s with colors := mapSet s.colors path 1 } :=
        Inv_gray m s path hw hinv
      have hg1 : colorOf { s with colors := mapSet s.colors path 1 } path
          = 1 := by
        rw [colorOf_set, if_pos rfl]
      have hwc : whiteCount m { s with colors := mapSet s.colors path 1 }
          + 1 = whiteCount m s :=
        whiteCount_gray m s path hmem hWF.1 hw
      exact ihp.2 (mapGetD m.dependencies path []) _ path s' hinv1 hg1
        (by omega) (fun d hd => hd)
        (fun d hd => Or.inl hd) h
    refine ⟨hgo, ?_⟩
    intro ds
    induction ds with
    | nil =>
      intro s path s' hinv hg hfuel _ hdone h
      rw [dfsLoop_nil] at h
      injection h with h1 _
      subst h1
      have htargets : ∀ v, edgeTo m path v → colorOf s v = 2 := by
        rintro v ⟨d, hd, hres⟩
        rcases hdone d hd with hmem | hblack
        · simp at hmem
        · exact hblack v hres
      refine ⟨Inv_blacken m s path hinv hg htargets, ?_⟩
      rw [colorOf_set, if_pos rfl]
    | cons d ds ih =>
      intro s path s' hinv hg hfuel hsub hdone h
      rw [dfsLoop_cons] at h
      cases hres : resolveDependency m d with
      | none =>
        simp only [hres] at h
        refine ih s path s' hinv hg hfuel
          (fun x hx => hsub x (List.mem_cons_of_mem _ hx)) ?_ h
        intro d2 hd2
        rcases hdone d2 hd2 with hmem | hblack
        · rcases List.mem_cons.mp hmem with hmem | hmem
          · subst hmem
            refine Or.inr ?_
            intro q hq
            rw [hres] at hq
            cases hq
          · exact Or.inl hmem
        · exact Or.inr hblack
      | some depPath =>
        simp only [hres] at h
        by_cases hc1 : colorOf s depPath = 1
        · rw [if_pos hc1] at h
          cases h
        · rw [if_neg hc1] at h
          by_cases hc0 : colorOf s depPath = 0
          · rw [if_pos hc0] at h
            cases hrec : dfsGo m (fuel + 1)
                { s with parent := mapSet s.parent depPath path } depPath with
            | mk s3 r3 =>
              cases r3 with
              | some cyc =>
                simp only [hrec] at h
                simp at h
              | none =>
                simp only [hrec] at h
                have hmemDep : mapHas m.pathToKey depPath = true :=
                  resolve_in_paths m hWF d depPath hres
                have hrecC := hgo
                  { s with parent := mapSet s.parent depPath path }
                  depPath s3 hmemDep hinv hc0 hfuel hrec
                have hpost := (dfs_grayPost m (fuel + 1)).1
                  { s with parent := mapSet s.parent depPath path }
                  depPath s3 hc0 hrec
                have hg3 : colorOf s3 path = 1 := (hpost.1 path).mpr hg
                have hfuel3 : whiteCount m s3 < fuel + 1 := by
                  have := whiteCount_mono m
                    { s with parent := mapSet s.parent depPath path } s3
                    hpost.2.2
                  have hsame : whiteCount m
                      { s with parent := mapSet s.parent depPath path } =
                      whiteCount m s := rfl
                  omega
                refine ih s3 path s' hrecC.1 hg3 hfuel3
                  (fun x hx => hsub x (List.mem_cons_of_mem _ hx)) ?_ h
                intro d2 hd2
                rcases hdone d2 hd2 with hmem | hblack
                · rcases List.mem_cons.mp hmem with hmem | hmem
                  · subst hmem
                    refine Or.inr ?_
                    intro q hq
                    rw [hres] at hq
                    injection hq with hq
                    subst hq
                    exact hrecC.2
                  · exact Or.inl hmem
                · refine Or.inr ?_
                  intro q hq
                  exact hpost.2.1 q (hblack q hq)
          · rw [if_neg hc0] at h
            have hc2 : colorOf s depPath = 2 := by
              have := hinv.1 depPath
              omega
            refine ih s path s' hinv hg hfuel
              (fun x hx => hsub x (List.mem_cons_of_mem _ hx)) ?_ h
            intro d2 hd2
            rcases hdone d2 hd2 with hmem | hblack
            · rcases List.mem_cons.mp hmem with hmem | hmem
              · subst hmem
                refine Or.inr ?_
                intro q hq
                rw [hres] at hq
                injection hq with hq
                subst hq
                exact hc2
              · exact Or.inl hmem
            · exact Or.inr hblack

/-- No node is gray. -/
def NoGray (s : DfsState) : Prop := ∀ v, colorOf s v ≠ 1

/-- The top validation loop, completed without a cycle report: all
listed paths end black, black marks persist, and the invariant holds. -/
theorem validateLoop_none (m : TrackerState) (hWF : WFmaps m) (fuel : Nat) :
    ∀ (ps : List String) (s : DfsState), Inv m s → NoGray s →
      (∀ p ∈ ps, mapHas m.pathToKey p = true) →
      whiteCount m s < fuel →
      validateLoop m fuel ps s = none →
      ∃ s', Inv m s' ∧ (∀ p ∈ ps, colorOf s' p = 2) ∧
        (∀ v, colorOf s v = 2 → colorOf s' v = 2) := by
  intro ps
  induction ps with
  | nil =>
    intro s hinv _ _ _ _
    exact ⟨s, hinv, by simp, fun _ h => h⟩
  | cons p ps ih =>
    intro s hinv hng hps hfuel h
    unfold validateLoop at h
    by_cases hc0 : colorOf s p = 0
    · rw [if_pos hc0] at h
      cases hrec : dfsGo m fuel s p with
      | mk s2 r2 =>
        cases r2 with
        | some cyc =>
          rw [hrec] at h
          cases h
        | none =>
          rw [hrec] at h
          have hC := (dfs_complete m hWF fuel).1 s p s2
            (hps p (List.mem_cons_self _ _)) hinv hc0 hfuel hrec
          have hpost := (dfs_grayPost m fuel).1 s p s2 hc0 hrec
          have hng2 : NoGray s2 := fun v hv => hng v ((hpost.1 v).mp hv)
          have hfuel2 : whiteCount m s2 < fuel := by
            have := whiteCount_mono m s s2 hpost.2.2
            omega
          obtain ⟨s', hinv', hblack', hpers'⟩ := ih s2 hC.1 hng2
            (fun q hq => hps q (List.mem_cons_of_mem _ hq)) hfuel2 h
          refine ⟨s', hinv', ?_, ?_⟩
          · intro q hq
            rcases List.mem_cons.mp hq with hq | hq
            · subst hq
              exact hpers' q hC.2
            · exact hblack' q hq
          · intro v hv
            exact hpers' v (hpost.2.1 v hv)
    · rw [if_neg hc0] at h
      have hc2 : colorOf s p = 2 := by
        have h1 := hinv.1 p
        have h2 := hng p
        omega
      obtain ⟨s', hinv', hblack', hpers'⟩ := ih s hinv hng
        (fun q hq => hps q (List.mem_cons_of_mem _ hq)) hfuel h
      refine ⟨s', hinv', ?_, hpers'⟩
      intro q hq
      rcases List.mem_cons.mp hq with hq | hq
      · subst hq
        exact hpers' q hc2
      · exact hblack' q hq

/-- The top validation loop with a cycle report: the resolved edge
relation has a cycle. -/
theorem validateLoop_some (m : TrackerState) (fuel : Nat) :
    ∀ (ps : List String) (s : DfsState) (c : String), NoGray s →
      validateLoop m fuel ps s = some c →
      ∃ v, Relation.TransGen (edgeTo m) v v := by
  intro ps
  induction ps with
  | nil =>
    intro s c _ h
    unfold validateLoop at h
    cases h
  | cons p ps ih =>
    intro s c hng h
    unfold validateLoop at h
    by_cases hc0 : colorOf s p = 0
    · rw [if_pos hc0] at h
      cases hrec : dfsGo m fuel s p with
      | mk s2 r2 =>
        cases r2 with
        | some cyc =>
          refine (dfs_sound m fuel).1 s p s2 cyc ?_ hrec
          intro g hg
          exact absurd hg (hng g)
        | none =>
          rw [hrec] at h
          have hpost := (dfs_grayPost m fuel).1 s p s2 hc0 hrec
          exact ih s2 c (fun v hv => hng v ((hpost.1 v).mp hv)) h
    · rw [if_neg hc0] at h
      exact ih s c hng h

theorem colorOf_initColors (paths : List String) (v : String) :
    colorOf { colors := initColors paths, parent := [] } v = 0 := by
  show mapGetD (initColors paths) v 0 = 0
  unfold initColors
  induction paths with
  | nil => rfl
  | cons a rest ih =>
    unfold mapGetD mapGet
    by_cases hav : a = v
    · simp [hav]
    · simp only [List.map_cons, if_neg hav]
      exact ih

/-- `validateNoCycles` reports no cycle exactly when the resolved edge
relation is acyclic. -/
theorem validateNoCycles_none_iff (m : TrackerState) (hWF : WFmaps m) :
    validateNoCycles m = none ↔ ¬hasCycle m := by
  set s0 : DfsState :=
    { colors := initColors (mapKeys m.pathToKey), parent := [] } with hs0
  have hwhite : ∀ v, colorOf s0 v = 0 := colorOf_initColors _
  have hinv0 : Inv m s0 := by
    refine ⟨fun v => by rw [hwhite v]; omega, ?_, ?_⟩
    · intro u hu
      rw [hwhite u] at hu
      cases hu
    · intro v hv
      rw [hwhite v] at hv
      cases hv
  have hng0 : NoGray s0 := fun v => by rw [hwhite v]; omega
  constructor
  · intro hnone
    rintro ⟨v, hTG⟩
    obtain ⟨s', hinv', hblack'⟩ := validateLoop_none m hWF
      ((mapKeys m.pathToKey).length + 1) (mapKeys m.pathToKey) s0 hinv0 hng0
      (fun p hp => by
        simpa [mapHas] using mapGet_isSome_of_mem_keys m.pathToKey p hp)
      (by have := whiteCount_le_length m s0; omega) hnone
    obtain ⟨w, hvw, _⟩ := (Relation.TransGen.head'_iff).mp hTG
    obtain ⟨d, hd, _⟩ := hvw
    have hvdeps : mapHas m.dependencies v = true := by
      cases hget : mapGet m.dependencies v with
      | none => simp [mapGetD, hget] at hd
      | some ds => simp [mapHas, hget]
    have hvpaths : mapHas m.pathToKey v = true := hWF.2.2.2.2 v hvdeps
    have hvmem : v ∈ mapKeys m.pathToKey :=
      mem_mapKeys_of_get_isSome _ _ (by simpa [mapHas] using hvpaths)
    exact hinv'.2.2 v (hblack'.1 v hvmem) hTG
  · intro hnc
    cases hval : validateNoCycles m with
    | none => rfl
    | some c =>
      unfold validateNoCycles at hval
      exact absurd (validateLoop_some m _ _ s0 c hng0 hval) hnc

/-- `VerificationRunner.run`: initialize the tracker (which validates
the dependency graph) and only then execute the root nodes under the
default parallel strategy; a validation error aborts the run before any
node is executed, so the error result carries no task results and no
events — no process is spawned. -/
def run (g : VerificationNode → TaskResult × List Event)
    (filters : Option (List String)) (tasks : List VerificationNode) :
    Except String (Bool × List TaskResult) :=
  match initTracker tasks with
  | Except.error e => Except.error e
  | Except.ok _ =>
    let results := runNodes g filters tasks "" Strategy.parallel
    Except.ok (results.all (fun r => r.ok), results)

/-- C3: initialization succeeds exactly on acyclic resolved dependency
graphs.  When the resolved edge set has a cycle (self-loop or transitive
cycle of any length), `initialize` throws the configuration error naming
the cycle, and `run` — which validates before executing any node —
aborts with that error for every execution oracle, producing no task
results: no process is ever spawned for a cyclic configuration. -/
theorem c3_cycle_validation (nodes : List VerificationNode) :
    (¬hasCycle (initWalk emptyTracker "" nodes) →
      ∃ st, initTracker nodes = Except.ok st) ∧
    (hasCycle (initWalk emptyTracker "" nodes) →
      (∃ cyc, initTracker nodes = Except.error
        ("Circular reporting dependency detected: " ++ cyc)) ∧
      (∀ (g : VerificationNode → TaskResult × List Event)
        (filters : Option (List String)),
        ∃ msg, run g filters nodes = Except.error msg)) := by
  have hWF : WFmaps (initWalk emptyTracker "" nodes) :=
    initWalk_WF nodes emptyTracker ""
      ⟨List.nodup_nil, List.nodup_nil, List.nodup_nil,
        fun k p hk => by simp [emptyTracker, mapGet] at hk,
        fun p hp => by simp [emptyTracker, mapHas, mapGet] at hp⟩
  constructor
  · intro hnc
    have hnone : validateNoCycles (initWalk emptyTracker "" nodes) = none :=
      (validateNoCycles_none_iff _ hWF).mpr hnc
    refine ⟨buildReverseDeps (initWalk emptyTracker "" nodes), ?_⟩
    unfold initTracker
    simp only [hnone]
  · intro hcyc
    cases hval : validateNoCycles (initWalk emptyTracker "" nodes) with
    | none =>
      exact absurd ((validateNoCycles_none_iff _ hWF).mp hval) (by
        intro h
        exact h hcyc)
    | some c =>
      have hinit : initTracker nodes = Except.error
          ("Circular reporting dependency detected: " ++ c) := by
        unfold initTracker
        simp only [hval]
      refine ⟨⟨c, hinit⟩, ?_⟩
      intro g filters
      refine ⟨"Circular reporting dependency detected: " ++ c, ?_⟩
      unfold run
      simp only [hinit]

/-- An acyclic one-node tree with no dependencies. -/
def c3Acyclic : List VerificationNode := [{ key := "x", children := [] }]

/-- A one-node tree whose node declares a dependency on itself. -/
def c3Cyclic : List VerificationNode :=
  [{ key := "a", children := [], reportingDependsOn := ["a"] }]

/-- A trivial execution oracle, for the C3 witness. -/
def c3Oracle : VerificationNode → TaskResult × List Event := fun n =>
  ({ key := n.key, path := n.key, ok := true, code := 0, durationMs := 0,
     output := "", summaryLine := n.key, children := [] }, [])

/-- C3 witness: on the concrete acyclic tree initialization succeeds; on
the concrete self-loop tree it throws the configuration error and the
run aborts with it. -/
theorem c3_witness :
    (∃ st, initTracker c3Acyclic = Except.ok st) ∧
    (∃ cyc, initTracker c3Cyclic = Except.error
      ("Circular reporting dependency detected: " ++ cyc)) ∧
    (∃ msg, run c3Oracle none c3Cyclic = Except.error msg) := by
  have hdeps : (initWalk emptyTracker "" c3Acyclic).dependencies = [] := by
    simp [c3Acyclic, initWalk, emptyTracker]
  have hnc : ¬hasCycle (initWalk emptyTracker "" c3Acyclic) := by
    rintro ⟨v, hTG⟩
    obtain ⟨w, ⟨d, hd, _⟩, _⟩ := (Relation.TransGen.head'_iff).mp hTG
    rw [hdeps] at hd
    simp [mapGetD, mapGet] at hd
  have hcyc : hasCycle (initWalk emptyTracker "" c3Cyclic) := by
    refine ⟨"a", Relation.TransGen.single ⟨"a", ?_, ?_⟩⟩
    · simp [c3Cyclic, initWalk, emptyTracker, mapGetD, mapGet, mapSet]
    · simp [c3Cyclic, initWalk, emptyTracker, resolveDependency, mapHas,
        mapGet, mapSet]
  exact ⟨(c3_cycle_validation c3Acyclic).1 hnc,
    ((c3_cycle_validation c3Cyclic).2 hcyc).1,
    ((c3_cycle_validation c3Cyclic).2 hcyc).2 c3Oracle none⟩

end Verify
